import Mathlib

/-!
Verification development for the Go safetensors container codec
(github.com/maruel/safetensors).

The corpus holds two generations of the codec:
* the current one (`Parse`, `File.Serialize`, `safeTensorsHeader` in
  safetensors.go), which keeps tensor entries in source order on both
  encode and decode, and
* the legacy one (`prepare`, `Metadata.UnmarshalJSON`, `ReadMetadata`),
  which sorts canonically on encode and by data offsets on decode.

Both are embedded below.  Buffers are lists of byte values (`List Nat`),
Go `uint64` arithmetic is `Nat` arithmetic taken `% two64` where the Go
code can wrap, and Go `DType` (a string type) is embedded as `String`.

Go's `encoding/json` is external library code; it is embedded here as an
executable byte-level JSON reader producing `JVal` values plus the
struct/map decoding rules the repository relies on.  The reader accepts a
slight superset of JSON (string escape sequences are rejected rather than
decoded, leading zeros in numbers are accepted); no input appearing in
the claims is affected.
-/

namespace Safetensors

/-- 2^64, the modulus of Go `uint64` arithmetic. -/
def two64 : Nat := 18446744073709551616

/-- Header size ceiling, `maxHeaderSize` in safetensors.go. -/
def maxHeaderSize : Nat := 100000000

/-- Byte width of an element-type tag, 0 for unknown tags.  Mirrors the
`dTypeToSize` / `DTypeToWordSize` table of dtype.go. -/
def wordSize : String → Nat
  | "BOOL" => 1
  | "U8" => 1
  | "I8" => 1
  | "F8_E5M2" => 1
  | "F8_E4M3" => 1
  | "I16" => 2
  | "U16" => 2
  | "F16" => 2
  | "BF16" => 2
  | "I32" => 4
  | "U32" => 4
  | "F32" => 4
  | "F64" => 8
  | "I64" => 8
  | "U64" => 8
  | _ => 0

/-- Bytes of an ASCII string (each `Char` to its code point). -/
def sBytes (s : String) : List Nat := s.data.map Char.toNat

/-- Little-endian read of the first 8 bytes, `binary.LittleEndian.Uint64`. -/
def le64 (l : List Nat) : Nat :=
  (l.take 8).foldr (fun b acc => b + 256 * acc) 0

/-- Little-endian 8-byte encoding, `binary.LittleEndian.PutUint64`. -/
def le64bytes (n : Nat) : List Nat :=
  (List.range 8).map (fun i => n / 256 ^ i % 256)

/-- Decimal digit bytes, by structural recursion on a fuel bound (so
the kernel can evaluate it); `fuel ≥ n` always suffices. -/
def natBytesAux : Nat → Nat → List Nat
  | 0, n => [48 + n % 10]
  | fuel + 1, n =>
    if n < 10 then [48 + n] else natBytesAux fuel (n / 10) ++ [48 + n % 10]

/-- Decimal digits of a natural number, as ASCII byte values.  Mirrors
Go's decimal formatting of a `uint64` (`strconv`, `fmt`). -/
def natBytes (n : Nat) : List Nat := natBytesAux n n

/-- A JSON value as Go's `encoding/json` presents it to this repository
after decoding with `UseNumber`: `jnat` is a number token that is a plain
unsigned integer, `jbad` is any other number token (negative, fractional
or exponent form — `ParseUint`/`uint64` decoding rejects those), `jprim`
is `true`, `false` or `null`. -/
inductive JVal where
  | jstr : String → JVal
  | jnat : Nat → JVal
  | jbad : JVal
  | jarr : List JVal → JVal
  | jobj : List (String × JVal) → JVal
  | jprim : JVal

/-- Skip JSON whitespace. -/
def skipWs : List Nat → List Nat
  | [] => []
  | b :: rest =>
    if b == 32 || b == 9 || b == 10 || b == 13 then skipWs rest
    else b :: rest

/-- Scan a JSON string body up to the closing quote.  Escape sequences
(backslash) are not decoded; no input in this development contains one. -/
def scanStrChars : List Nat → Option (List Char × List Nat)
  | [] => none
  | b :: rest =>
    if b == 34 then some ([], rest)
    else if b == 92 then none
    else
      match scanStrChars rest with
      | some (cs, r) => some (Char.ofNat b :: cs, r)
      | none => none

/-- Span of leading ASCII digits. -/
def scanDigits : List Nat → List Nat × List Nat
  | [] => ([], [])
  | b :: rest =>
    if 48 ≤ b ∧ b ≤ 57 then
      let p := scanDigits rest
      (b :: p.1, p.2)
    else ([], b :: rest)

/-- Value of a digit-byte list. -/
def digitsVal (ds : List Nat) : Nat :=
  ds.foldl (fun a d => 10 * a + (d - 48)) 0

/-- Drop a leading sign byte of an exponent part. -/
def dropSign (l : List Nat) : List Nat :=
  if l.head? = some 43 ∨ l.head? = some 45 then l.tail else l

/-- Head test on a byte list. -/
def isByte (l : List Nat) (b : Nat) : Bool :=
  match l with
  | x :: _ => x == b
  | [] => false

/-- Scan a JSON number token.  A plain unsigned integer becomes `jnat`,
any other number form becomes `jbad`. -/
def scanNum (input : List Nat) : Except String (JVal × List Nat) :=
  let neg := isByte input 45
  let rest1 := if neg then input.tail else input
  let p := scanDigits rest1
  if p.1 = [] then .error "invalid number" else
  let hasFrac := isByte p.2 46
  let rest3 := if hasFrac then (scanDigits p.2.tail).2 else p.2
  let hasExp := isByte rest3 101 || isByte rest3 69
  let rest4 := if hasExp then (scanDigits (dropSign rest3.tail)).2 else rest3
  if neg || hasFrac || hasExp then .ok (JVal.jbad, rest4)
  else .ok (JVal.jnat (digitsVal p.1), p.2)

/-- Check a literal byte suffix (for `true`, `false`, `null`). -/
def expectLit (input : List Nat) (lit : List Nat) : Except String (JVal × List Nat) :=
  if lit.isPrefixOf input then .ok (JVal.jprim, input.drop lit.length)
  else .error "invalid literal"

mutual

/-- Read one JSON value.  `fuel` only bounds recursion; `jsonRead` below
supplies enough of it for every input whose read can succeed. -/
def readVal : Nat → List Nat → Except String (JVal × List Nat)
  | 0, _ => .error "out of fuel"
  | fuel + 1, input =>
    match skipWs input with
    | [] => .error "unexpected end of JSON"
    | b :: rest =>
      if b == 34 then
        match scanStrChars rest with
        | some (cs, r) => .ok (JVal.jstr (String.mk cs), r)
        | none => .error "bad string"
      else if b == 123 then
        match skipWs rest with
        | 125 :: r => .ok (JVal.jobj [], r)
        | other => readMembers fuel other
      else if b == 91 then
        match skipWs rest with
        | 93 :: r => .ok (JVal.jarr [], r)
        | other => readElems fuel other
      else if b == 116 then expectLit rest [114, 117, 101]
      else if b == 102 then expectLit rest [97, 108, 115, 101]
      else if b == 110 then expectLit rest [117, 108, 108]
      else if b == 45 ∨ (48 ≤ b ∧ b ≤ 57) then scanNum (b :: rest)
      else .error "invalid character"

/-- Read the members of a JSON object after its opening brace (nonempty
case). -/
def readMembers : Nat → List Nat → Except String (JVal × List Nat)
  | 0, _ => .error "out of fuel"
  | fuel + 1, input =>
    match skipWs input with
    | 34 :: rest =>
      match scanStrChars rest with
      | none => .error "bad string"
      | some (cs, r1) =>
        match skipWs r1 with
        | 58 :: r2 =>
          match readVal fuel r2 with
          | .error e => .error e
          | .ok (v, r3) =>
            match skipWs r3 with
            | 44 :: r4 =>
              match readMembers fuel r4 with
              | .ok (JVal.jobj ms, r5) => .ok (JVal.jobj ((String.mk cs, v) :: ms), r5)
              | .ok _ => .error "impossible"
              | .error e => .error e
            | 125 :: r4 => .ok (JVal.jobj [(String.mk cs, v)], r4)
            | _ => .error "expected comma or end of object"
        | _ => .error "expected colon"
    | _ => .error "expected string key"

/-- Read the elements of a JSON array after its opening bracket (nonempty
case). -/
def readElems : Nat → List Nat → Except String (JVal × List Nat)
  | 0, _ => .error "out of fuel"
  | fuel + 1, input =>
    match readVal fuel input with
    | .error e => .error e
    | .ok (v, r1) =>
      match skipWs r1 with
      | 44 :: r2 =>
        match readElems fuel r2 with
        | .ok (JVal.jarr vs, r3) => .ok (JVal.jarr (v :: vs), r3)
        | .ok _ => .error "impossible"
        | .error e => .error e
      | 93 :: r2 => .ok (JVal.jarr [v], r2)
      | _ => .error "expected comma or end of array"

end

/-- Read a whole JSON document: one value, then only whitespace.
Mirrors the validity check plus decoding of Go `json.Unmarshal`. -/
def jsonRead (input : List Nat) : Except String JVal :=
  match readVal (2 * input.length + 8) input with
  | .error e => .error e
  | .ok (v, rest) =>
    if skipWs rest = [] then .ok v else .error "unexpected trailing data"

/-- `tensorInfo` of the current header codec (safetensors.go): name, the
Go `DType` string (zero value `""` when the field is absent), shape and
the two data offsets.  It doubles as the name-paired `TensorInfo` of the
legacy codec. -/
structure TensorInfoC where
  name : String
  dtype : String
  shape : List Nat
  off0 : Nat
  off1 : Nat
deriving DecidableEq, Repr

/-- `safeTensorsHeader`: the decoded header, tensor entries in carried
order plus the optional side dictionary. -/
structure HeaderC where
  tensors : List TensorInfoC
  metadata : List (String × String)
deriving DecidableEq, Repr

/-- `Tensor` (safetensors.go): a named view with its raw data bytes. -/
structure Tensor where
  name : String
  dtype : String
  shape : List Nat
  data : List Nat
deriving DecidableEq, Repr

/-- `File` (safetensors.go): the parsed container. -/
structure FileS where
  tensors : List Tensor
  metadata : List (String × String)
deriving DecidableEq, Repr

/-- `numElementsFromShape` of the current safetensors.go: the empty shape
counts as one element (scalar); the product wraps like Go `uint64`. -/
def numElementsFromShape : List Nat → Nat
  | [] => 1
  | n :: rest => rest.foldl (fun a v => a * v % two64) n

/-- Shape formatting used in the `invalid tensor` message (`%+v`). -/
def fmtShape (l : List Nat) : String :=
  "[" ++ String.intercalate " " (l.map toString) ++ "]"

/-- `Tensor.Validate`: the data length must equal element count times
word size, computed with wrapping `uint64` arithmetic. -/
def tensorValidate (t : Tensor) : Bool :=
  t.data.length == numElementsFromShape t.shape * wordSize t.dtype % two64

/-- `checkedMul`: the wrapped product together with the overflow flag
`a > 1 && b > 1 && c/a != b`. -/
def checkedMul (a b : Nat) : Nat × Bool :=
  let c := a * b % two64
  (c, decide (1 < a) && decide (1 < b) && decide (c / a ≠ b))

/-- `checkedMul` in its error-returning form. -/
def checkedMulE (a b : Nat) : Except String Nat :=
  if (checkedMul a b).2 then
    .error ("multiplication overflow: " ++ toString a ++ " * " ++ toString b)
  else .ok (checkedMul a b).1

/-- The element-count loop of both validators: `checkedMul` folded over
the dimensions from a carried accumulator. -/
def numElementsGo : List Nat → Nat → Except String Nat
  | [], acc => .ok acc
  | v :: rest, acc =>
    match checkedMulE acc v with
    | .error e => .error e
    | .ok c => numElementsGo rest c

/-- Element count of a shape via `checkedMul`, starting from 1, as both
validators compute it. -/
def numElementsChecked (shape : List Nat) : Except String Nat :=
  numElementsGo shape 1

/-- Overflow-checked byte size of (shape, dtype), with the error
wrappers of `tensorInfo.validate` / `Metadata.validate`. -/
def numBytesChecked (dtype : String) (shape : List Nat) : Except String Nat :=
  match numElementsChecked shape with
  | .error e => .error ("failed to compute num elements from shape: " ++ e)
  | .ok ne =>
    match checkedMulE ne (wordSize dtype) with
    | .error e => .error ("failed to compute num bytes from num elements: " ++ e)
    | .ok nb => .ok nb

/-- `tensorInfo.validate` of the current codec, at a carried start
offset. -/
def tensorInfoValidate (t : TensorInfoC) (start : Nat) : Except String Unit :=
  if t.off0 ≠ start then
    .error ("invalid offset start: expected " ++ toString start ++ ", got " ++ toString t.off0)
  else if t.off1 < start then
    .error ("invalid offset end: " ++ toString t.off1 ++ " < " ++ toString start)
  else
    match numBytesChecked t.dtype t.shape with
    | .error e => .error e
    | .ok nb =>
      if t.off1 - start ≠ nb then
        .error ("info data offsets mismatch: expected " ++ toString nb ++ ", got "
          ++ toString (t.off1 - start))
      else .ok ()

/-- Walk of `safeTensorsHeader.validate` from a given index and carried
start offset. -/
def headerValidateGo : List TensorInfoC → Nat → Nat → Except String Nat
  | [], _, start => .ok start
  | t :: rest, i, start =>
    match tensorInfoValidate t start with
    | .error e =>
      .error ("tensor \"" ++ t.name ++ "\" #" ++ toString i ++ ": " ++ e)
    | .ok _ => headerValidateGo rest (i + 1) t.off1

/-- `safeTensorsHeader.validate`: walk entries in carried order, return
the final end offset. -/
def headerValidate (ts : List TensorInfoC) : Except String Nat :=
  headerValidateGo ts 0 0

/-- Insert-or-replace into an association list (Go map write). -/
def upsertA {α : Type} : List (String × α) → String → α → List (String × α)
  | [], k, v => [(k, v)]
  | (k', v') :: rest, k, v =>
    if k' = k then (k, v) :: rest else (k', v') :: upsertA rest k v

/-- Collapse duplicate keys the way decoding into a Go map does (last
occurrence wins). -/
def jmap {α : Type} (entries : List (String × α)) : List (String × α) :=
  entries.foldl (fun acc p => upsertA acc p.1 p.2) []

/-- Association-list lookup (Go map read). -/
def lookupA {α : Type} : List (String × α) → String → Option α
  | [], _ => none
  | (k', v) :: rest, k => if k' = k then some v else lookupA rest k

/-- Element-wise fallible mapping, stopping at the first error (the Go
decoding loops). -/
def mapExcept {α β : Type} (f : α → Except String β) : List α → Except String (List β)
  | [] => .ok []
  | x :: rest =>
    match f x with
    | .error e => .error e
    | .ok y =>
      match mapExcept f rest with
      | .error e => .error e
      | .ok ys => .ok (y :: ys)

/-- Go decoding of a JSON value into `uint64`. -/
def decodeU64 : JVal → Except String Nat
  | .jnat n => if n < two64 then .ok n else .error "number out of range of uint64"
  | _ => .error "cannot unmarshal value into uint64"

/-- Modelled from the spec: the current dtype.go variant (whose
`DType.UnmarshalJSON` is absent from src/, witnessed only by
dtype_test.go) rejects a non-string value and any tag that is not in the
width table. -/
def decodeDType : JVal → Except String String
  | .jstr s =>
    if wordSize s ≠ 0 then .ok s
    else .error ("\"" ++ s ++ "\" is not a valid DType")
  | _ => .error "cannot unmarshal value into string"

/-- Go decoding of a JSON value into `[]uint64`. -/
def decodeU64List : JVal → Except String (List Nat)
  | .jarr l => mapExcept decodeU64 l
  | _ => .error "cannot unmarshal value into slice of uint64"

/-- Element of a Go fixed `[2]uint64` array: absent positions stay 0. -/
def decodeOffsetAt (l : List JVal) (i : Nat) : Except String Nat :=
  match l.get? i with
  | some v => decodeU64 v
  | none => .ok 0

/-- Go decoding of a JSON value into `[2]uint64`: shorter JSON arrays
leave zeros, excess elements are discarded. -/
def decodeOffsets : JVal → Except String (Nat × Nat)
  | .jarr l => do
    let a ← decodeOffsetAt l 0
    let b ← decodeOffsetAt l 1
    .ok (a, b)
  | _ => .error "cannot unmarshal value into offsets array"

/-- One JSON object member applied to a `tensorInfo` being decoded by
the generic Go struct decoder: the three tagged fields are decoded,
every other key is ignored.  (Go would also match keys
case-insensitively; no input in this development relies on that.) -/
def applyTIField (acc : TensorInfoC) (k : String) (v : JVal) : Except String TensorInfoC :=
  if k = "dtype" then do
    let d ← decodeDType v
    .ok { acc with dtype := d }
  else if k = "shape" then do
    let s ← decodeU64List v
    .ok { acc with shape := s }
  else if k = "data_offsets" then do
    let p ← decodeOffsets v
    .ok { acc with off0 := p.1, off1 := p.2 }
  else .ok acc

/-- The member loop of the generic struct decoder. -/
def tiGo : List (String × JVal) → TensorInfoC → Except String TensorInfoC
  | [], acc => .ok acc
  | p :: rest, acc =>
    match applyTIField acc p.1 p.2 with
    | .error e => .error e
    | .ok acc2 => tiGo rest acc2

/-- `dec.Decode(&t)` for a `tensorInfo` in the current
`safeTensorsHeader.UnmarshalJSON`: generic struct decoding with zero
values for absent fields. -/
def decodeTensorInfoC (name : String) : JVal → Except String TensorInfoC
  | .jobj members => tiGo members ⟨name, "", [], 0, 0⟩
  | _ => .error "cannot unmarshal value into tensorInfo"

/-- The member loop of decoding a JSON object into a Go
`map[string]string`. -/
def strMapGo : List (String × JVal) → List (String × String) → Except String (List (String × String))
  | [], acc => .ok acc
  | p :: rest, acc =>
    match p.2 with
    | .jstr s => strMapGo rest (upsertA acc p.1 s)
    | _ => .error "cannot unmarshal value into string"

/-- `dec.Decode(&h.metadata)`: decoding a JSON object into the existing
`map[string]string`. -/
def decodeStrMapInto (cur : List (String × String)) : JVal → Except String (List (String × String))
  | .jobj members => strMapGo members cur
  | _ => .error "cannot unmarshal value into map of string to string"

/-- One top-level header key in the current `UnmarshalJSON`. -/
def headerStep (h : HeaderC) (k : String) (v : JVal) : Except String HeaderC :=
  if k = "__metadata__" then do
    let md ← decodeStrMapInto h.metadata v
    .ok { h with metadata := md }
  else do
    let t ← decodeTensorInfoC k v
    .ok { h with tensors := h.tensors ++ [t] }

/-- `safeTensorsHeader.UnmarshalJSON`: top-level keys processed in
source order, order kept; an empty tensor list is an error.  When the
document is not an object the Go code returns the decoder's `nil` error
untouched, leaving the header empty — mirrored by the final case. -/
def headerGo : List (String × JVal) → HeaderC → Except String HeaderC
  | [], h => .ok h
  | p :: rest, h =>
    match headerStep h p.1 p.2 with
    | .error e => .error e
    | .ok h2 => headerGo rest h2

def headerUnmarshalC : JVal → Except String HeaderC
  | .jobj entries =>
    match headerGo entries ⟨[], []⟩ with
    | .error e => .error e
    | .ok h => if h.tensors.length = 0 then .error "empty tensors" else .ok h
  | _ => .ok ⟨[], []⟩

/-- `safeTensorsHeader.parseHeaderBytes`: length prefix, ceiling check,
bounds check, then JSON decoding of the header slice. -/
def parseHeaderBytes (buffer : List Nat) : Except String (Nat × HeaderC) :=
  if buffer.length < 8 then
    .error ("too small (" ++ toString buffer.length ++ " bytes)")
  else
    let n := le64 buffer
    if n > maxHeaderSize then
      .error ("too large max " ++ toString maxHeaderSize ++ ", actual " ++ toString n)
    else if n + 8 > buffer.length then
      .error ("invalid length " ++ toString (n + 8))
    else
      match jsonRead ((buffer.drop 8).take n) with
      | .error e => .error e
      | .ok j =>
        match headerUnmarshalC j with
        | .error e => .error e
        | .ok h => .ok (n, h)

/-- Go slice `data[a:b]`. -/
def sliceBytes (data : List Nat) (a b : Nat) : List Nat :=
  (data.take b).drop a

/-- The tensor-building loop at the end of `Parse`: slice each data
range, validate each resulting tensor. -/
def buildTensors (data : List Nat) : List TensorInfoC → Except String (List Tensor)
  | [] => .ok []
  | t :: rest =>
    let tensor : Tensor := ⟨t.name, t.dtype, t.shape, sliceBytes data t.off0 t.off1⟩
    if tensorValidate tensor then
      match buildTensors data rest with
      | .error e => .error e
      | .ok more => .ok (tensor :: more)
    else
      .error ("invalid tensor: dtype=" ++ tensor.dtype ++ " shape=" ++ fmtShape tensor.shape
        ++ " len(data)=" ++ toString tensor.data.length)

/-- `Parse` (safetensors.go, current): full decode of a byte buffer. -/
def Parse (buffer : List Nat) : Except String FileS :=
  match parseHeaderBytes buffer with
  | .error e => .error ("invalid header: " ++ e)
  | .ok (n, h) =>
    match headerValidate h.tensors with
    | .error e => .error ("invalid metadata: " ++ e)
    | .ok bufferEnd =>
      if (bufferEnd + 8 + n) % two64 ≠ buffer.length then
        .error ("metadata incomplete buffer: " ++ toString ((bufferEnd + 8 + n) % two64)
          ++ " != " ++ toString buffer.length)
      else
        match buildTensors (buffer.drop (n + 8)) h.tensors with
        | .error e => .error e
        | .ok ts => .ok ⟨ts, h.metadata⟩

/-- `tensorInfo.fromTensor` folded over a tensor list: contiguous data
offsets accumulated with `uint64` wrap-around, in the given order. -/
def assignOffsets : List Tensor → Nat → List TensorInfoC
  | [], _ => []
  | t :: rest, offset =>
    let e := (offset + t.data.length) % two64
    ⟨t.name, t.dtype, t.shape, offset, e⟩ :: assignOffsets rest e

/-- JSON quoting of a name needing no escapes. -/
def quoteBytes (s : String) : List Nat := 34 :: (sBytes s ++ [34])

/-- Byte-list join with a separator. -/
def joinBytes (sep : List Nat) : List (List Nat) → List Nat
  | [] => []
  | [x] => x
  | x :: rest => x ++ (sep ++ joinBytes sep rest)

/-- `json.Marshal` of a `tensorInfo`: the three tagged fields in struct
order. -/
def marshalInfo (t : TensorInfoC) : List Nat :=
  sBytes "\x7b\"dtype\":\"" ++ sBytes t.dtype ++ sBytes "\",\"shape\":["
    ++ joinBytes (sBytes ",") (t.shape.map natBytes) ++ sBytes "],\"data_offsets\":["
    ++ natBytes t.off0 ++ sBytes "," ++ natBytes t.off1 ++ sBytes "]\x7d"

/-- Key order of `json.Marshal` on a Go map: ascending by key. -/
def sortPairs (l : List (String × String)) : List (String × String) :=
  List.insertionSort (fun a b => a.1 ≤ b.1) l

/-- `json.Marshal` of the `map[string]string` side dictionary. -/
def marshalStrMap (md : List (String × String)) : List Nat :=
  sBytes "\x7b"
    ++ joinBytes (sBytes ",")
      ((sortPairs md).map (fun p => quoteBytes p.1 ++ (sBytes ":" ++ quoteBytes p.2)))
    ++ sBytes "\x7d"

/-- `safeTensorsHeader.MarshalJSON`: hand-concatenated pairs, the
reserved key first when the side dictionary is nonempty, then tensor
entries in carried order. -/
def marshalHeader (md : List (String × String)) (infos : List TensorInfoC) : List Nat :=
  let pairs :=
    (if md.length ≠ 0 then [sBytes "\"__metadata__\":" ++ marshalStrMap md] else [])
      ++ infos.map (fun t => quoteBytes t.name ++ (sBytes ":" ++ marshalInfo t))
  sBytes "\x7b" ++ joinBytes (sBytes ",") pairs ++ sBytes "\x7d"

/-- ASCII space padding. -/
def spaceBytes (k : Nat) : List Nat := List.replicate k 32

/-- Space-pad the marshaled header to the next multiple of 8
(`File.Serialize`). -/
def padHeader (b : List Nat) : List Nat :=
  if b.length % 8 = 0 then b else b ++ spaceBytes (8 - b.length % 8)

/-- The per-tensor validation loop at the start of `File.Serialize`. -/
def validateTensors : List Tensor → Except String Unit
  | [] => .ok ()
  | t :: rest =>
    if tensorValidate t then validateTensors rest
    else
      .error ("invalid tensor: dtype=" ++ t.dtype ++ " shape=" ++ fmtShape t.shape
        ++ " len(data)=" ++ toString t.data.length)

/-- The tensor infos `File.Serialize` writes, in the order given by the
file, with offsets accumulated from 0. -/
def serializeInfos (f : FileS) : List TensorInfoC :=
  assignOffsets f.tensors 0

/-- `File.Serialize` (current): validate, marshal, pad, length-prefix,
then the tensor payloads in file order. -/
def serializeFile (f : FileS) : Except String (List Nat) :=
  match validateTensors f.tensors with
  | .error e => .error e
  | .ok _ =>
    let hb := padHeader (marshalHeader f.metadata (serializeInfos f))
    .ok (le64bytes (hb.length % two64) ++ hb ++ (f.tensors.map Tensor.data).flatten)

/-- `ParseUint` on a decoded `json.Number` (legacy `unmarshalSliceUint64`
elements). -/
def jvalToU64 : JVal → Except String Nat
  | .jnat n => if n < two64 then .ok n else .error "expected natural number: out of range"
  | _ => .error "expected natural number"

/-- Legacy `unmarshalTIDType`: present, a string, and a known tag. -/
def unmarshalTIDTypeL (m : List (String × JVal)) : Except String String :=
  match lookupA m "dtype" with
  | none => .error "missing \"dtype\""
  | some (.jstr s) =>
    if wordSize s ≠ 0 then .ok s else .error "invalid \"dtype\" value"
  | some _ => .error "invalid \"dtype\" value"

/-- Legacy `unmarshalTIShape`: present, an array of naturals. -/
def unmarshalTIShapeL (m : List (String × JVal)) : Except String (List Nat) :=
  match lookupA m "shape" with
  | none => .error "missing \"shape\""
  | some (.jarr l) => mapExcept jvalToU64 l
  | some _ => .error "invalid \"shape\" value: expected array"

/-- Legacy `unmarshalTIDataOffsets`: present, an array of exactly two
naturals. -/
def unmarshalTIDataOffsetsL (m : List (String × JVal)) : Except String (Nat × Nat) :=
  match lookupA m "data_offsets" with
  | none => .error "missing \"data_offsets\""
  | some (.jarr [x, y]) =>
    (match jvalToU64 x with
     | .error e => .error e
     | .ok a =>
       match jvalToU64 y with
       | .error e => .error e
       | .ok b => .ok (a, b))
  | some (.jarr _) => .error "invalid \"data_offsets\" value: expected array of 2 elements"
  | some _ => .error "invalid \"data_offsets\" value: expected array"

/-- Legacy strict `unmarshalTensorInfo`: the value must be an object
with exactly the three expected fields. -/
def unmarshalTensorInfoL (name : String) (v : JVal) : Except String TensorInfoC :=
  match v with
  | .jobj raw =>
    if (jmap raw).length ≠ 3 then
      .error "invalid keys: expected 3 keys (dtype, shape, data_offsets)"
    else
      match unmarshalTIDTypeL (jmap raw) with
      | .error e => .error e
      | .ok d =>
        match unmarshalTIShapeL (jmap raw) with
        | .error e => .error e
        | .ok s =>
          match unmarshalTIDataOffsetsL (jmap raw) with
          | .error e => .error e
          | .ok p => .ok ⟨name, d, s, p.1, p.2⟩
  | _ => .error "cannot unmarshal tensor value into object"

/-- Legacy decoded `Metadata`: the side dictionary and the name-paired
tensor infos (`Names[i]` with `Tensors[i]`). -/
structure MetadataL where
  metadata : List (String × String)
  pairs : List TensorInfoC
deriving DecidableEq, Repr

/-- Offset order used by the legacy decoder's sort: ascending by
(start, end). -/
def offLE (a b : TensorInfoC) : Prop :=
  a.off0 < b.off0 ∨ (a.off0 = b.off0 ∧ a.off1 ≤ b.off1)

instance : DecidableRel offLE := fun a b => by
  unfold offLE
  exact inferInstance

/-- Legacy `unmarshalMetadata`: all values of the reserved object must
be strings. -/
def unmarshalMetadataL (v : JVal) : Except String (List (String × String)) :=
  match v with
  | .jobj raw => strMapGo (jmap raw) []
  | _ => .error "cannot unmarshal __metadata__ into map"

/-- Strict parse of every non-reserved entry, in carried order. -/
def parseEntriesL : List (String × JVal) → Except String (List TensorInfoC)
  | [] => .ok []
  | (k, v) :: rest =>
    if k = "__metadata__" then parseEntriesL rest
    else
      match unmarshalTensorInfoL k v with
      | .error e => .error ("failed to JSON-decode tensor \"" ++ k ++ "\": " ++ e)
      | .ok t =>
        match parseEntriesL rest with
        | .error e => .error e
        | .ok more => .ok (t :: more)

/-- The reserved entry of the header, if present. -/
def findMetaL (entries : List (String × JVal)) : Except String (List (String × String)) :=
  match lookupA entries "__metadata__" with
  | none => .ok []
  | some v => unmarshalMetadataL v

/-- Legacy `Metadata.UnmarshalJSON`: decode into a map (duplicate keys
collapse), strictly parse every tensor entry, then sort by (start, end)
ascending.  Go iterates its map in arbitrary order and sorts with an
unstable sort; this embedding determinizes both by keeping source order
before the (stable) sort. -/
def metadataUnmarshalL (v : JVal) : Except String MetadataL :=
  match v with
  | .jobj raw =>
    match findMetaL (jmap raw) with
    | .error e => .error e
    | .ok md =>
      match parseEntriesL (jmap raw) with
      | .error e => .error e
      | .ok ts => .ok ⟨md, List.insertionSort offLE ts⟩
  | _ => .error "failed to unmarshal Metadata"

/-- Walk of the legacy `Metadata.validate` at a carried start offset. -/
def validateLGo : List TensorInfoC → Nat → Except String Nat
  | [], start => .ok start
  | t :: rest, start =>
    if t.off0 ≠ start ∨ t.off1 < t.off0 then
      .error ("invalid metadata offset for tensor \"" ++ t.name ++ "\"")
    else
      match numBytesChecked t.dtype t.shape with
      | .error e => .error ("metadata validation error: " ++ e)
      | .ok nb =>
        if t.off1 - t.off0 ≠ nb then
          .error "metadata validation error: info data offsets mismatch"
        else validateLGo rest t.off1

/-- Legacy `ReadMetadata`: framing, JSON decode, validation, exact
length check. -/
def ReadMetadataL (buffer : List Nat) : Except String (Nat × MetadataL) :=
  if buffer.length < 8 then
    .error ("header (" ++ toString buffer.length ++ " bytes) too small")
  else
    let n := le64 buffer
    if n > maxHeaderSize then
      .error ("header too large: max " ++ toString maxHeaderSize ++ ", actual " ++ toString n)
    else if n + 8 > buffer.length then
      .error ("invalid header length " ++ toString (n + 8))
    else
      match jsonRead ((buffer.drop 8).take n) with
      | .error e => .error ("invalid header deserialization: " ++ e)
      | .ok j =>
        match metadataUnmarshalL j with
        | .error e => .error ("invalid header deserialization: " ++ e)
        | .ok m =>
          match validateLGo m.pairs 0 with
          | .error e => .error e
          | .ok bufferEnd =>
            if (bufferEnd + 8 + n) % two64 ≠ buffer.length then
              .error "metadata incomplete buffer"
            else .ok (n, m)

/-- The order the legacy `prepare` sorts into: descending dtype width,
ties broken by ascending name. -/
def prepLE (a b : Tensor) : Prop :=
  wordSize b.dtype < wordSize a.dtype
    ∨ (wordSize a.dtype = wordSize b.dtype ∧ a.name ≤ b.name)

instance : DecidableRel prepLE := fun a b => by
  unfold prepLE
  exact inferInstance

/-- The same canonical order on tensor infos. -/
def canonLE (a b : TensorInfoC) : Prop :=
  wordSize b.dtype < wordSize a.dtype
    ∨ (wordSize a.dtype = wordSize b.dtype ∧ a.name ≤ b.name)

instance : DecidableRel canonLE := fun a b => by
  unfold canonLE
  exact inferInstance

/-- The canonical sort of the legacy `prepare` (its `sort.Slice` call,
determinized by a stable sort; the comparison has no ties when names are
distinct, as they are for keys of a Go map). -/
def prepareSortedL (data : List Tensor) : List Tensor :=
  List.insertionSort prepLE data

/-- The tensor infos the legacy `prepare` emits: offsets accumulated
from 0 in canonical order. -/
def prepareInfosL (data : List Tensor) : List TensorInfoC :=
  assignOffsets (prepareSortedL data) 0

/-- A character that Go `json.Marshal` emits verbatim inside a string
literal: printable ASCII, no quote, backslash or HTML-escaped
character. -/
def jsonPlainChar (c : Char) : Bool :=
  32 ≤ c.toNat && c.toNat < 128 && !(c.toNat = 34) && !(c.toNat = 92)
    && !(c.toNat = 60) && !(c.toNat = 62) && !(c.toNat = 38)

/-- A string marshaled verbatim (no JSON escapes needed). -/
def jsonPlain (s : String) : Bool := s.data.all jsonPlainChar

/-- The per-entry conditions of the metadata validator, carried along
the list: each entry starts where the previous one ended (0 first),
does not end before it starts, and spans exactly its overflow-checked
byte size. -/
def chainOk : List TensorInfoC → Nat → Prop
  | [], _ => True
  | t :: rest, start =>
    t.off0 = start ∧ start ≤ t.off1
      ∧ (∃ nb, numBytesChecked t.dtype t.shape = Except.ok nb ∧ t.off1 - start = nb)
      ∧ chainOk rest t.off1

/-- End offset of the last entry (the carried start when none). -/
def lastEnd : List TensorInfoC → Nat → Nat
  | [], start => start
  | t :: rest, _ => lastEnd rest t.off1

/-- A JSON object all of whose values are strings. -/
def strMapObj : JVal → Bool
  | .jobj ms => ms.all (fun p => match p.2 with | .jstr _ => true | _ => false)
  | _ => false

/-- The schema the legacy strict decoder enforces on one tensor entry
(after collapsing duplicate keys): exactly the three expected fields,
a known string dtype, shapes and offsets as arrays of in-range
naturals, and exactly two offsets. -/
def tiWellFormed (mm : List (String × JVal)) : Prop :=
  mm.length = 3
    ∧ (∃ s, lookupA mm "dtype" = some (.jstr s) ∧ wordSize s ≠ 0)
    ∧ (∃ l, lookupA mm "shape" = some (.jarr l)
        ∧ ∀ v ∈ l, ∃ k, v = JVal.jnat k ∧ k < two64)
    ∧ (∃ l, lookupA mm "data_offsets" = some (.jarr l) ∧ l.length = 2
        ∧ ∀ v ∈ l, ∃ k, v = JVal.jnat k ∧ k < two64)

/-- An emitted tensor info carries its tensor's name, dtype and shape,
and spans exactly the tensor's data length (with `uint64` wrap). -/
def infoMatches (i : TensorInfoC) (t : Tensor) : Prop :=
  i.name = t.name ∧ i.dtype = t.dtype ∧ i.shape = t.shape
    ∧ i.off1 = (i.off0 + t.data.length) % two64

/-- Contiguous data offsets: each entry starts where the previous one
ended, the first at the given offset. -/
def offsetsChain : List TensorInfoC → Nat → Prop
  | [], _ => True
  | t :: rest, start => t.off0 = start ∧ offsetsChain rest t.off1

instance : IsTotal Tensor prepLE :=
  ⟨fun a b => by
    unfold prepLE
    rcases Nat.lt_trichotomy (wordSize a.dtype) (wordSize b.dtype) with h | h | h
    · exact Or.inr (Or.inl h)
    · rcases le_total a.name b.name with h' | h'
      · exact Or.inl (Or.inr ⟨h, h'⟩)
      · exact Or.inr (Or.inr ⟨h.symm, h'⟩)
    · exact Or.inl (Or.inl h)⟩

instance : IsTrans Tensor prepLE :=
  ⟨fun a b c hab hbc => by
    unfold prepLE at *
    rcases hab with h1 | ⟨e1, n1⟩ <;> rcases hbc with h2 | ⟨e2, n2⟩
    · exact Or.inl (h2.trans h1)
    · exact Or.inl (e2 ▸ h1)
    · exact Or.inl (e1 ▸ h2)
    · exact Or.inr ⟨e1.trans e2, n1.trans n2⟩⟩

instance : IsTotal TensorInfoC offLE :=
  ⟨fun a b => by
    unfold offLE
    rcases Nat.lt_trichotomy a.off0 b.off0 with h | h | h
    · exact Or.inl (Or.inl h)
    · rcases Nat.le_total a.off1 b.off1 with h' | h'
      · exact Or.inl (Or.inr ⟨h, h'⟩)
      · exact Or.inr (Or.inr ⟨h.symm, h'⟩)
    · exact Or.inr (Or.inl h)⟩

instance : IsTrans TensorInfoC offLE :=
  ⟨fun a b c hab hbc => by
    unfold offLE at *
    rcases hab with h1 | ⟨e1, n1⟩ <;> rcases hbc with h2 | ⟨e2, n2⟩
    · exact Or.inl (h1.trans h2)
    · exact Or.inl (e2 ▸ h1)
    · exact Or.inl (e1 ▸ h2)
    · exact Or.inr ⟨e1.trans e2, n1.trans n2⟩⟩

/-- The container of scenario B: one F32 tensor `foo`, shape [1,2,3],
values 0..5 as little-endian IEEE-754 bytes. -/
def fooFile : FileS :=
  ⟨[⟨"foo", "F32", [1, 2, 3],
     [0,0,0,0, 0,0,128,63, 0,0,0,64, 0,0,64,64, 0,0,128,64, 0,0,160,64]⟩], []⟩

/-- The 96 bytes `File.Serialize` produces for `fooFile`: LE length 64,
the 61-byte header padded with three spaces, then the 24 data bytes. -/
def fooOut : List Nat :=
  [64,0,0,0,0,0,0,0]
  ++ sBytes "\x7b\"foo\":\x7b\"dtype\":\"F32\",\"shape\":[1,2,3],\"data_offsets\":[0,24]\x7d\x7d   "
  ++ [0,0,0,0, 0,0,128,63, 0,0,0,64, 0,0,64,64, 0,0,128,64, 0,0,160,64]

/-- A container whose only tensor passes `Tensor.Validate` through
`uint64` wrap-around of the shape product (2^32 · 2^32 ≡ 0), yet whose
encoding the checked decoder rejects. -/
def c1bad : FileS := ⟨[⟨"t", "U8", [4294967296, 4294967296], []⟩], []⟩

/-- A container listing a 4-byte-wide tensor before an 8-byte-wide one;
canonical order would put `a` (F64) first. -/
def fc2 : FileS :=
  ⟨[⟨"b", "F32", [1], [0,0,0,0]⟩, ⟨"a", "F64", [1], [0,0,0,0,0,0,0,0]⟩], []⟩

/-- A header whose keys appear out of offset order: `b` spans [1,2),
`a` spans [0,1). -/
def c3hdr : String :=
  "\x7b\"b\":\x7b\"dtype\":\"U8\",\"shape\":[1],\"data_offsets\":[1,2]\x7d,\"a\":\x7b\"dtype\":\"U8\",\"shape\":[1],\"data_offsets\":[0,1]\x7d\x7d"

/-- The full 115-byte input around `c3hdr` (105 header bytes, 2 payload
bytes). -/
def c3bytes : List Nat := le64bytes 105 ++ sBytes c3hdr ++ [7, 9]

/-- The top-level entries of `c3hdr`, keys in source order. -/
def c3raw : List (String × JVal) :=
  [("b", JVal.jobj [("dtype", JVal.jstr "U8"), ("shape", JVal.jarr [JVal.jnat 1]),
      ("data_offsets", JVal.jarr [JVal.jnat 1, JVal.jnat 2])]),
   ("a", JVal.jobj [("dtype", JVal.jstr "U8"), ("shape", JVal.jarr [JVal.jnat 1]),
      ("data_offsets", JVal.jarr [JVal.jnat 0, JVal.jnat 1])])]

/-- The JSON value of `c3hdr`. -/
def c3jval : JVal := JVal.jobj c3raw

/-- What the legacy decoder yields for `c3bytes`: entries re-sorted into
ascending offset order. -/
def c3meta : MetadataL :=
  ⟨[], [⟨"a", "U8", [1], 0, 1⟩, ⟨"b", "U8", [1], 1, 2⟩]⟩

/-- A header whose only tensor entry carries a fourth, unknown field. -/
def c7hdr : String :=
  "\x7b\"t\":\x7b\"dtype\":\"U8\",\"shape\":[1],\"data_offsets\":[0,1],\"x\":0\x7d\x7d"

/-- The full input around `c7hdr` (59 header bytes, 1 payload byte). -/
def c7bytes : List Nat := le64bytes 59 ++ sBytes c7hdr ++ [5]

/-- The JSON value of `c7hdr`: the entry has four fields. -/
def c7jval : JVal :=
  JVal.jobj
    [("t", JVal.jobj [("dtype", JVal.jstr "U8"), ("shape", JVal.jarr [JVal.jnat 1]),
        ("data_offsets", JVal.jarr [JVal.jnat 0, JVal.jnat 1]), ("x", JVal.jnat 0)])]

/-- The input of the empty-shape scenario: dtype I32, shape `[]`, a
4-byte payload. -/
def c9bytes : List Nat :=
  le64bytes 56
  ++ sBytes "\x7b\"test\":\x7b\"dtype\":\"I32\",\"shape\":[],\"data_offsets\":[0,4]\x7d\x7d"
  ++ [1, 0, 0, 0]

/-- The encoding of a container with zero tensors: LE length 8 and the
padded header. -/
def emptyEnc : List Nat := [8,0,0,0,0,0,0,0] ++ sBytes "\x7b\x7d      "

/-- The two-tensor offset pattern [0,4], [0,4] of the contiguity
scenario. -/
def c4dup : List TensorInfoC :=
  [⟨"test1", "I32", [1], 0, 4⟩, ⟨"test2", "I32", [1], 0, 4⟩]

/-- The corrected, contiguous version of `c4dup`. -/
def c4ok : List TensorInfoC :=
  [⟨"test1", "I32", [1], 0, 4⟩, ⟨"test2", "I32", [1], 4, 8⟩]

/-- A well-formed tensor entry for the legacy strict decoder. -/
def c7goodRaw : List (String × JVal) :=
  [("dtype", JVal.jstr "U8"), ("shape", JVal.jarr [JVal.jnat 1]),
   ("data_offsets", JVal.jarr [JVal.jnat 0, JVal.jnat 1])]

/-- A byte list whose head cannot continue or follow a number token
(all the contexts in which the encoder places a number). -/
def numStop : List Nat → Prop
  | [] => True
  | b :: _ => b = 44 ∨ b = 93 ∨ b = 125

/-- The JSON value a marshaled `tensorInfo` denotes. -/
def infoJ (t : TensorInfoC) : JVal :=
  JVal.jobj [("dtype", .jstr t.dtype), ("shape", .jarr (t.shape.map JVal.jnat)),
    ("data_offsets", .jarr [.jnat t.off0, .jnat t.off1])]

/-- The ordered top-level entries a marshaled header denotes. -/
def headerEntriesJ (md : List (String × String)) (infos : List TensorInfoC) :
    List (String × JVal) :=
  (if md.length ≠ 0 then
    [("__metadata__", JVal.jobj ((sortPairs md).map (fun p => (p.1, JVal.jstr p.2))))]
  else [])
    ++ infos.map (fun t => (t.name, infoJ t))

/-- Reader fuel sufficient for one marshaled tensor info. -/
def infoFuel (t : TensorInfoC) : Nat := t.shape.length + 8

/-- The marshaled info bytes from the offsets array on, in reader-ready
nested form. -/
def infoTail3 (t : TensorInfoC) (rest : List Nat) : List Nat :=
  91 :: (natBytes t.off0 ++ (44 :: (natBytes t.off1 ++ (93 :: (125 :: rest)))))

/-- From the `data_offsets` key on. -/
def infoTail2 (t : TensorInfoC) (rest : List Nat) : List Nat :=
  34 :: (sBytes "data_offsets" ++ (34 :: (58 :: infoTail3 t rest)))

/-- From the shape array on. -/
def infoTail2b (t : TensorInfoC) (rest : List Nat) : List Nat :=
  91 :: (joinBytes [44] (t.shape.map natBytes) ++ (93 :: (44 :: infoTail2 t rest)))

/-- From the `shape` key on. -/
def infoTail1 (t : TensorInfoC) (rest : List Nat) : List Nat :=
  34 :: (sBytes "shape" ++ (34 :: (58 :: infoTail2b t rest)))

/-- From the dtype string value on. -/
def infoTail0 (t : TensorInfoC) (rest : List Nat) : List Nat :=
  34 :: (sBytes t.dtype ++ (34 :: (44 :: infoTail1 t rest)))

/-- The whole marshaled info in reader-ready nested form. -/
def infoBytesN (t : TensorInfoC) (rest : List Nat) : List Nat :=
  123 :: (34 :: (sBytes "dtype" ++ (34 :: (58 :: infoTail0 t rest))))

/-- Reader fuel sufficient for the member chain of marshaled tensor
entries. -/
def entriesFuel : List TensorInfoC → Nat
  | [] => 1
  | t :: rest => infoFuel t + entriesFuel rest + 2

/-- Reader fuel sufficient for a marshaled string map plus its member
chain. -/
def mdFuel (md : List (String × String)) : Nat := 2 * md.length + 4

/-- The header `File.Serialize` marshals for `fc2`: entries in file
order, `b` first. -/
def fc2hdr : String :=
  "\x7b\"b\":\x7b\"dtype\":\"F32\",\"shape\":[1],\"data_offsets\":[0,4]\x7d,\"a\":\x7b\"dtype\":\"F64\",\"shape\":[1],\"data_offsets\":[4,12]\x7d\x7d"

/-- The full encoding of `fc2` (108-byte header padded to 112). -/
def fc2out : List Nat :=
  le64bytes 112 ++ (sBytes fc2hdr ++ spaceBytes 4) ++ List.replicate 12 0

/-- The padded header bytes `File.Serialize` emits for a file. -/
def hbBytes (f : FileS) : List Nat :=
  padHeader (marshalHeader f.metadata (serializeInfos f))

/-- Total payload size of a file. -/
def dataSum (f : FileS) : Nat := (f.tensors.map (fun w => w.data.length)).sum

/-- The full byte buffer `File.Serialize` emits for a file passing
validation. -/
def outBytes (f : FileS) : List Nat :=
  le64bytes ((hbBytes f).length % two64)
    ++ (hbBytes f ++ (f.tensors.map Tensor.data).flatten)

theorem two64_pos : 0 < two64 := by norm_num [two64]

theorem checkedMul_flag_iff (a b : Nat) :
    (checkedMul a b).2 = true ↔ (1 < a ∧ 1 < b ∧ (a * b % two64) / a ≠ b) := by
  simp [checkedMul, and_assoc]

theorem checkedMul_flag_overflow (a b : Nat) (ha : a < two64) (hb : b < two64) :
    ((checkedMul a b).2 = true ↔ two64 ≤ a * b) := by
  rw [checkedMul_flag_iff]
  constructor
  · rintro ⟨h1, _, h3⟩
    by_contra hc
    push_neg at hc
    exact h3 (by rw [Nat.mod_eq_of_lt hc, Nat.mul_div_cancel_left b (by omega)])
  · intro h
    have ha1 : 1 < a := by
      rcases Nat.lt_or_ge 1 a with h' | h'
      · exact h'
      · have hab : a * b ≤ b := by simpa using Nat.mul_le_mul_right b h'
        omega
    have hb1 : 1 < b := by
      rcases Nat.lt_or_ge 1 b with h' | h'
      · exact h'
      · have hab : a * b ≤ a := by simpa using Nat.mul_le_mul_left a h'
        omega
    refine ⟨ha1, hb1, ?_⟩
    have hco : a * b = b * a := Nat.mul_comm a b
    have hmod : a * b % two64 < b * a := by
      have h1 : a * b % two64 < two64 := Nat.mod_lt _ two64_pos
      omega
    have hlt : (a * b % two64) / a < b := (Nat.div_lt_iff_lt_mul (by omega)).mpr hmod
    omega

theorem checkedMul_no_overflow_val (a b : Nat) (ha : a < two64) (hb : b < two64)
    (h : (checkedMul a b).2 = false) : (checkedMul a b).1 = a * b := by
  have : ¬ two64 ≤ a * b := by
    intro hc
    rw [(checkedMul_flag_overflow a b ha hb).mpr hc] at h
    exact Bool.noConfusion h
  show a * b % two64 = a * b
  exact Nat.mod_eq_of_lt (by omega)

theorem string_reassoc (a b t : String) : a ++ (b ++ t) = (a ++ b) ++ t :=
  (String.append_assoc a b t).symm

/-- C6: `checkedMul` signals overflow exactly when `a > 1`, `b > 1` and
the wrapped product divided by `a` differs from `b`; for 64-bit-range
inputs that is exactly real overflow of `a * b`, and on no overflow the
returned product is exact.  `checkedMul (2^64 - 1) 2` signals overflow,
and `checkedMul 0 x` returns 0 without overflow for every `x`. -/
theorem c6_checkedMul (a b : Nat) (ha : a < two64) (hb : b < two64) :
    ((checkedMul a b).2 = true ↔ (1 < a ∧ 1 < b ∧ (a * b % two64) / a ≠ b))
    ∧ ((checkedMul a b).2 = true ↔ two64 ≤ a * b)
    ∧ ((checkedMul a b).2 = false → (checkedMul a b).1 = a * b)
    ∧ checkedMul (two64 - 1) 2 = (two64 - 2, true)
    ∧ checkedMul 0 b = (0, false) := by
  refine ⟨checkedMul_flag_iff a b, checkedMul_flag_overflow a b ha hb,
    checkedMul_no_overflow_val a b ha hb, by decide, ?_⟩
  simp [checkedMul]

/-- C6 witness at `a = max_u64`, `b = 2`. -/
theorem c6_checkedMul_witness :
    (checkedMul 18446744073709551615 2).2 = true ↔ two64 ≤ 18446744073709551615 * 2 :=
  (c6_checkedMul 18446744073709551615 2 (by norm_num [two64]) (by norm_num [two64])).2.1

/-- C5: any buffer of at least 8 bytes whose little-endian u64 prefix
exceeds 100,000,000 is rejected by `Parse` with the header-too-large
error, regardless of the buffer's actual length. -/
theorem c5_header_ceiling (buffer : List Nat) (h8 : 8 ≤ buffer.length)
    (hbig : maxHeaderSize < le64 buffer) :
    Parse buffer
      = .error ("invalid header: too large max 100000000, actual " ++ toString (le64 buffer)) := by
  have h1 : ¬ (buffer.length < 8) := by omega
  unfold Parse parseHeaderBytes
  rw [if_neg h1, if_pos hbig]
  show Except.error ("invalid header: " ++ (("too large max " ++ toString maxHeaderSize
      ++ ", actual ") ++ toString (le64 buffer))) = _
  rw [string_reassoc]
  rfl

/-- C5 witness: the 8-byte buffer of the Go test, claimed header length
18446742974197923900, no bytes at all after the prefix. -/
theorem c5_header_ceiling_witness :
    Parse [60, 0, 0, 0, 0, 255, 255, 255]
      = .error ("invalid header: too large max 100000000, actual "
        ++ toString (le64 [60, 0, 0, 0, 0, 255, 255, 255])) :=
  c5_header_ceiling [60, 0, 0, 0, 0, 255, 255, 255] (by decide) (by decide)

/-- C9: the header declaring dtype I32, empty shape `[]` and offsets
[0,4] over a 4-byte payload decodes successfully, and the empty shape
counts as one element in both validation paths of the decoder. -/
theorem c9_empty_shape :
    Parse c9bytes = .ok ⟨[⟨"test", "I32", [], [1, 0, 0, 0]⟩], []⟩
    ∧ numElementsFromShape [] = 1
    ∧ numElementsChecked [] = .ok 1 :=
  ⟨rfl, rfl, rfl⟩

/-- C1 counterexample: the container `c1bad` passes view validation
(its shape product wraps to 0 in `uint64`), `File.Serialize` encodes it,
and `Parse` rejects the encoding with an overflow error — so
decode-after-encode does not yield the original tensors for every
container that passes view validation. -/
theorem c1_roundtrip_counterexample :
    c1bad.tensors.all tensorValidate = true
    ∧ (serializeFile c1bad >>= Parse)
      = .error "invalid metadata: tensor \"t\" #0: failed to compute num elements from shape: multiplication overflow: 4294967296 * 4294967296" :=
  ⟨rfl, rfl⟩

/-- C2 counterexample: the current encoder `File.Serialize` writes
`fc2`'s entries in file order (`b` before `a`) with offsets assigned in
that order, although canonical order (descending width, then name) puts
`a` (F64) before `b` (F32). -/
theorem c2_counterexample :
    serializeFile fc2 = .ok fc2out
    ∧ serializeInfos fc2 = [⟨"b", "F32", [1], 0, 4⟩, ⟨"a", "F64", [1], 4, 12⟩]
    ∧ ¬ canonLE ⟨"b", "F32", [1], 0, 4⟩ ⟨"a", "F64", [1], 4, 12⟩ :=
  ⟨rfl, rfl, by decide⟩

/-- C3 counterexample: a header whose keys are out of offset order is
rejected by the current decoder `Parse`, which keeps source order and
runs the validator on it, instead of sorting by offsets and
succeeding. -/
theorem c3_counterexample :
    jsonRead (sBytes c3hdr) = .ok c3jval
    ∧ Parse c3bytes
      = .error "invalid metadata: tensor \"b\" #0: invalid offset start: expected 0, got 1" :=
  ⟨rfl, rfl⟩

/-- C7 counterexample: a tensor entry carrying a fourth, unknown field
is accepted by the current decoder `Parse` (the streaming struct decoder
ignores unknown fields), instead of failing. -/
theorem c7_counterexample :
    jsonRead (sBytes c7hdr) = .ok c7jval
    ∧ Parse c7bytes = .ok ⟨[⟨"t", "U8", [1], [5]⟩], []⟩ :=
  ⟨rfl, rfl⟩

theorem tensorInfoValidate_ok_iff (t : TensorInfoC) (start : Nat) :
    tensorInfoValidate t start = .ok () ↔
      (t.off0 = start ∧ start ≤ t.off1
        ∧ ∃ nb, numBytesChecked t.dtype t.shape = Except.ok nb ∧ t.off1 - start = nb) := by
  unfold tensorInfoValidate
  by_cases h0 : t.off0 = start
  · rw [if_neg (not_not_intro h0)]
    by_cases h1 : t.off1 < start
    · rw [if_pos h1]
      constructor
      · intro h; exact Except.noConfusion h
      · rintro ⟨_, h2, _⟩; omega
    · rw [if_neg h1]
      cases hnb : numBytesChecked t.dtype t.shape with
      | error e =>
        constructor
        · intro h; exact Except.noConfusion h
        · rintro ⟨_, _, nb, hnb2, _⟩
          exact Except.noConfusion hnb2
      | ok nb =>
        show (if t.off1 - start ≠ nb then
            Except.error ("info data offsets mismatch: expected " ++ toString nb
              ++ ", got " ++ toString (t.off1 - start))
          else Except.ok ()) = Except.ok () ↔ _
        by_cases h2 : t.off1 - start = nb
        · rw [if_neg (not_not_intro h2)]
          exact ⟨fun _ => ⟨h0, by omega, nb, rfl, h2⟩, fun _ => rfl⟩
        · rw [if_pos h2]
          constructor
          · intro h; exact Except.noConfusion h
          · rintro ⟨_, _, nb2, hnb2, he⟩
            injection hnb2 with hnb2
            omega
  · rw [if_pos h0]
    constructor
    · intro h; exact Except.noConfusion h
    · rintro ⟨h, _⟩; exact absurd h h0

theorem headerValidateGo_ok_iff (ts : List TensorInfoC) :
    ∀ i start, (∃ r, headerValidateGo ts i start = .ok r) ↔ chainOk ts start := by
  induction ts with
  | nil => intro i start; simp [headerValidateGo, chainOk]
  | cons t rest ih =>
    intro i start
    unfold headerValidateGo chainOk
    cases hv : tensorInfoValidate t start with
    | error e =>
      constructor
      · rintro ⟨r, hr⟩; exact Except.noConfusion hr
      · rintro ⟨h0, h1, h2, _⟩
        have := (tensorInfoValidate_ok_iff t start).mpr ⟨h0, h1, h2⟩
        rw [hv] at this
        exact Except.noConfusion this
    | ok u =>
      cases u
      have hok := (tensorInfoValidate_ok_iff t start).mp hv
      constructor
      · intro h
        exact ⟨hok.1, hok.2.1, hok.2.2, (ih (i + 1) t.off1).mp h⟩
      · rintro ⟨_, _, _, h4⟩
        exact (ih (i + 1) t.off1).mpr h4

theorem headerValidateGo_ok_val (ts : List TensorInfoC) :
    ∀ i start r, headerValidateGo ts i start = .ok r → r = lastEnd ts start := by
  induction ts with
  | nil =>
    intro i start r h
    unfold headerValidateGo at h
    injection h with h
    rw [← h]; rfl
  | cons t rest ih =>
    intro i start r h
    unfold headerValidateGo at h
    cases hv : tensorInfoValidate t start with
    | error e => rw [hv] at h; exact Except.noConfusion h
    | ok u =>
      cases u
      rw [hv] at h
      exact ih (i + 1) t.off1 r h

theorem headerValidateGo_error (ts : List TensorInfoC) :
    ∀ i start e, headerValidateGo ts i start = .error e →
      ∃ j, ∃ hj : j < ts.length, ∃ r,
        e = "tensor \"" ++ (ts.get ⟨j, hj⟩).name ++ "\" #" ++ toString (i + j) ++ ": " ++ r
          ∧ chainOk (ts.take j) start ∧ ¬ chainOk (ts.take (j + 1)) start := by
  induction ts with
  | nil =>
    intro i start e h
    unfold headerValidateGo at h
    exact Except.noConfusion h
  | cons t rest ih =>
    intro i start e h
    unfold headerValidateGo at h
    cases hv : tensorInfoValidate t start with
    | error e2 =>
      rw [hv] at h
      injection h with h
      refine ⟨0, by simp, e2, ?_, ?_, ?_⟩
      · rw [← h]; rfl
      · simp [chainOk]
      · intro hc
        simp only [List.take_succ_cons, List.take_zero, chainOk] at hc
        have := (tensorInfoValidate_ok_iff t start).mpr ⟨hc.1, hc.2.1, hc.2.2.1⟩
        rw [hv] at this
        exact Except.noConfusion this
    | ok u =>
      cases u
      rw [hv] at h
      obtain ⟨j, hj, r, hr, hc1, hc2⟩ := ih (i + 1) t.off1 e h
      have hok := (tensorInfoValidate_ok_iff t start).mp hv
      refine ⟨j + 1, by simpa using Nat.succ_lt_succ hj, r, ?_, ?_, ?_⟩
      · rw [hr]
        have : i + 1 + j = i + (j + 1) := by omega
        rw [this]
        rfl
      · simp only [List.take_succ_cons, chainOk]
        exact ⟨hok.1, hok.2.1, hok.2.2, hc1⟩
      · intro hc
        simp only [List.take_succ_cons, chainOk] at hc
        exact hc2 hc.2.2.2

/-- C4: the metadata validator succeeds exactly when, walking entries in
carried order, each entry starts at the previous end (0 first), does not
end before its start, and spans exactly its overflow-checked byte size;
on success it returns the final end offset, and on failure the error
message names the first offending tensor and its index.  In particular
offsets [0,4], [0,4] are rejected with an error naming `test2`. -/
theorem c4_validator (ts : List TensorInfoC) :
    ((∃ r, headerValidate ts = .ok r) ↔ chainOk ts 0)
    ∧ (∀ r, headerValidate ts = .ok r → r = lastEnd ts 0)
    ∧ (∀ e, headerValidate ts = .error e →
        ∃ j, ∃ hj : j < ts.length, ∃ r,
          e = "tensor \"" ++ (ts.get ⟨j, hj⟩).name ++ "\" #" ++ toString j ++ ": " ++ r
            ∧ chainOk (ts.take j) 0 ∧ ¬ chainOk (ts.take (j + 1)) 0)
    ∧ headerValidate c4dup
      = .error "tensor \"test2\" #1: invalid offset start: expected 4, got 0" := by
  refine ⟨headerValidateGo_ok_iff ts 0 0, fun r h => headerValidateGo_ok_val ts 0 0 r h,
    ?_, rfl⟩
  intro e h
  obtain ⟨j, hj, r, hr, hc1, hc2⟩ := headerValidateGo_error ts 0 0 e h
  exact ⟨j, hj, r, by simpa using hr, hc1, hc2⟩

/-- C4 witness: the validator accepts the contiguous `c4ok` and returns
its final end offset 8. -/
theorem c4_validator_witness : 8 = lastEnd c4ok 0 ∧ chainOk c4ok 0 :=
  ⟨(c4_validator c4ok).2.1 8 rfl, ((c4_validator c4ok).1).mp ⟨8, rfl⟩⟩

theorem strMapGo_ok (ms : List (String × JVal)) :
    ∀ acc, (∀ p ∈ ms, ∃ s, p.2 = JVal.jstr s) → ∃ r, strMapGo ms acc = .ok r := by
  induction ms with
  | nil => intro acc _; exact ⟨acc, rfl⟩
  | cons p rest ih =>
    intro acc h
    obtain ⟨s, hs⟩ := h p (by simp)
    unfold strMapGo
    rw [hs]
    exact ih (upsertA acc p.1 s) (fun q hq => h q (by simp [hq]))

theorem strMapObj_vals (ms : List (String × JVal)) (h : strMapObj (.jobj ms) = true) :
    ∀ p ∈ ms, ∃ s, p.2 = JVal.jstr s := by
  intro p hp
  simp only [strMapObj, List.all_eq_true] at h
  have := h p hp
  cases hv : p.2 <;> rw [hv] at this <;> simp at this
  exact ⟨_, rfl⟩

theorem headerGo_meta_only (entries : List (String × JVal)) :
    ∀ md, (∀ p ∈ entries, p.1 = "__metadata__" ∧ strMapObj p.2 = true) →
      ∃ md2, headerGo entries ⟨[], md⟩ = .ok ⟨[], md2⟩ := by
  induction entries with
  | nil => intro md _; exact ⟨md, rfl⟩
  | cons p rest ih =>
    intro md h
    obtain ⟨hk, hv⟩ := h p (by simp)
    unfold headerGo headerStep
    rw [if_pos hk]
    cases hpv : p.2 with
    | jobj ms =>
      obtain ⟨r, hr⟩ := strMapGo_ok ms md (strMapObj_vals ms (by rw [← hpv]; exact hv))
      have hd : decodeStrMapInto (HeaderC.mk [] md).metadata (JVal.jobj ms) = Except.ok r := hr
      rw [hd]
      exact ih r (fun q hq => h q (by simp [hq]))
    | jstr s => rw [hpv] at hv; simp [strMapObj] at hv
    | jnat n => rw [hpv] at hv; simp [strMapObj] at hv
    | jbad => rw [hpv] at hv; simp [strMapObj] at hv
    | jarr l => rw [hpv] at hv; simp [strMapObj] at hv
    | jprim => rw [hpv] at hv; simp [strMapObj] at hv

/-- C10: a header object holding no tensor entries (only, possibly, the
reserved key with a string map) is rejected with the `empty tensors`
error; a container with zero tensors still encodes, but its encoding can
never be decoded back. -/
theorem c10_empty_tensors :
    (∀ entries : List (String × JVal),
        (∀ p ∈ entries, p.1 = "__metadata__" ∧ strMapObj p.2 = true) →
        headerUnmarshalC (.jobj entries) = .error "empty tensors")
    ∧ serializeFile ⟨[], []⟩ = .ok emptyEnc
    ∧ Parse emptyEnc = .error "invalid header: empty tensors" := by
  refine ⟨?_, rfl, rfl⟩
  intro entries h
  obtain ⟨md2, hmd⟩ := headerGo_meta_only entries [] h
  show (match headerGo entries ⟨[], []⟩ with
      | Except.error e => Except.error e
      | Except.ok h2 =>
        if h2.tensors.length = 0 then Except.error "empty tensors" else Except.ok h2)
    = Except.error "empty tensors"
  rw [hmd]
  rfl

/-- C10 witness: the header object holding only a reserved string-map
entry is rejected as `empty tensors`. -/
theorem c10_empty_tensors_witness :
    headerUnmarshalC (.jobj [("__metadata__", JVal.jobj [("a", JVal.jstr "b")])])
      = .error "empty tensors" :=
  c10_empty_tensors.1 _ (by
    intro p hp
    simp only [List.mem_singleton] at hp
    subst hp
    exact ⟨rfl, rfl⟩)

theorem padHeader_spec (b : List Nat) :
    (padHeader b).length % 8 = 0 ∧ ∃ k, k < 8 ∧ padHeader b = b ++ spaceBytes k := by
  unfold padHeader
  by_cases h : b.length % 8 = 0
  · rw [if_pos h]
    exact ⟨h, 0, by omega, by simp [spaceBytes]⟩
  · rw [if_neg h]
    constructor
    · simp only [List.length_append, spaceBytes, List.length_replicate]
      omega
    · exact ⟨8 - b.length % 8, by omega, rfl⟩

/-- C8: every successful encoding is the little-endian u64 length of the
space-padded header, the padded header (a multiple of 8 bytes long, so
tensor data starts 8-byte aligned), then the payloads; in particular the
F32 tensor `foo` of shape [1,2,3] with values 0..5 encodes to exactly 96
bytes whose header starts with its entry. -/
theorem c8_alignment (f : FileS) (out : List Nat) (h : serializeFile f = .ok out) :
    (∃ hb, hb.length % 8 = 0
      ∧ (∃ k, k < 8 ∧ hb = marshalHeader f.metadata (serializeInfos f) ++ spaceBytes k)
      ∧ out = le64bytes (hb.length % two64) ++ hb ++ (f.tensors.map Tensor.data).flatten)
    ∧ serializeFile fooFile = .ok fooOut
    ∧ fooOut.length = 96
    ∧ (fooOut.drop 8).take 22 = sBytes "\x7b\"foo\":\x7b\"dtype\":\"F32\"," := by
  refine ⟨?_, rfl, rfl, rfl⟩
  unfold serializeFile at h
  cases hv : validateTensors f.tensors with
  | error e => rw [hv] at h; exact Except.noConfusion h
  | ok u =>
    cases u
    rw [hv] at h
    injection h with h
    exact ⟨padHeader (marshalHeader f.metadata (serializeInfos f)),
      (padHeader_spec _).1, (padHeader_spec _).2, h.symm⟩

/-- C8 witness: the concrete scenario-B output. -/
theorem c8_alignment_witness :
    fooOut.length = 96 ∧ (fooOut.drop 8).take 22 = sBytes "\x7b\"foo\":\x7b\"dtype\":\"F32\"," :=
  ⟨(c8_alignment fooFile fooOut rfl).2.2.1, (c8_alignment fooFile fooOut rfl).2.2.2⟩

theorem assignOffsets_spec (ts : List Tensor) :
    ∀ start, List.Forall₂ infoMatches (assignOffsets ts start) ts
      ∧ offsetsChain (assignOffsets ts start) start := by
  induction ts with
  | nil => intro start; exact ⟨List.Forall₂.nil, trivial⟩
  | cons t rest ih =>
    intro start
    exact ⟨List.Forall₂.cons ⟨rfl, rfl, rfl, rfl⟩ (ih _).1, rfl, (ih _).2⟩

/-- C2 amended: the legacy map-based encoder (`prepare`) writes entries
in canonical order — descending dtype byte-width, ties broken by
ascending name — with contiguous offsets accumulated from 0 over a
permutation of its input; the current `File.Serialize` instead assigns
offsets and writes entries in the order given by the `File`, without
any sorting. -/
theorem c2_canonical_order :
    (∀ data : List Tensor,
        List.Sorted prepLE (prepareSortedL data)
        ∧ (prepareSortedL data).Perm data
        ∧ List.Forall₂ infoMatches (prepareInfosL data) (prepareSortedL data)
        ∧ offsetsChain (prepareInfosL data) 0)
    ∧ (∀ f : FileS,
        List.Forall₂ infoMatches (serializeInfos f) f.tensors
        ∧ offsetsChain (serializeInfos f) 0) := by
  constructor
  · intro data
    exact ⟨List.sorted_insertionSort prepLE data, List.perm_insertionSort prepLE data,
      (assignOffsets_spec (prepareSortedL data) 0).1,
      (assignOffsets_spec (prepareSortedL data) 0).2⟩
  · intro f
    exact ⟨(assignOffsets_spec f.tensors 0).1, (assignOffsets_spec f.tensors 0).2⟩

/-- C3 amended: the legacy `Metadata` decoder sorts the strictly parsed
entries by (start, end) ascending — its result is always offset-sorted
and a permutation of what it parsed — so the out-of-order header
`c3bytes` decodes successfully through the legacy `ReadMetadata`, in
ascending-offset order; the current decoder keeps source order and
rejects such headers (see the counterexample). -/
theorem c3_legacy_sorts :
    (∀ raw m, metadataUnmarshalL (.jobj raw) = .ok m →
        List.Sorted offLE m.pairs
        ∧ ∃ parsed, parseEntriesL (jmap raw) = .ok parsed ∧ m.pairs.Perm parsed)
    ∧ ReadMetadataL c3bytes = .ok (105, c3meta) := by
  constructor
  · intro raw m h
    replace h : (match findMetaL (jmap raw) with
        | Except.error e => Except.error e
        | Except.ok md =>
          match parseEntriesL (jmap raw) with
          | Except.error e => Except.error e
          | Except.ok ts => Except.ok (MetadataL.mk md (List.insertionSort offLE ts)))
        = Except.ok m := h
    cases hmd : findMetaL (jmap raw) with
    | error e => rw [hmd] at h; exact Except.noConfusion h
    | ok md =>
      rw [hmd] at h
      cases hts : parseEntriesL (jmap raw) with
      | error e => rw [hts] at h; exact Except.noConfusion h
      | ok ts =>
        rw [hts] at h
        injection h with h
        subst h
        exact ⟨List.sorted_insertionSort offLE ts, ts, rfl,
          List.perm_insertionSort offLE ts⟩
  · rfl

/-- C3 witness: the legacy decode of the out-of-order header is
offset-sorted. -/
theorem c3_legacy_sorts_witness : List.Sorted offLE c3meta.pairs :=
  (c3_legacy_sorts.1 c3raw c3meta (by rfl)).1

theorem jvalToU64_ok (v : JVal) (k : Nat) (h : jvalToU64 v = .ok k) :
    v = JVal.jnat k ∧ k < two64 := by
  cases v with
  | jnat n =>
    replace h : (if n < two64 then Except.ok n
        else Except.error "expected natural number: out of range") = Except.ok k := h
    by_cases hn : n < two64
    · rw [if_pos hn] at h
      injection h with h
      subst h
      exact ⟨rfl, hn⟩
    · rw [if_neg hn] at h
      exact Except.noConfusion h
  | jstr s => exact Except.noConfusion h
  | jbad => exact Except.noConfusion h
  | jarr l => exact Except.noConfusion h
  | jobj o => exact Except.noConfusion h
  | jprim => exact Except.noConfusion h

theorem mapExcept_u64_mem (l : List JVal) :
    ∀ xs, mapExcept jvalToU64 l = .ok xs → ∀ v ∈ l, ∃ k, v = JVal.jnat k ∧ k < two64 := by
  induction l with
  | nil => intro xs _ v hv; exact absurd hv (List.not_mem_nil v)
  | cons x rest ih =>
    intro xs h v hv
    unfold mapExcept at h
    cases hx : jvalToU64 x with
    | error e => rw [hx] at h; exact Except.noConfusion h
    | ok y =>
      rw [hx] at h
      cases hr : mapExcept jvalToU64 rest with
      | error e => rw [hr] at h; exact Except.noConfusion h
      | ok ys =>
        rcases List.mem_cons.mp hv with hveq | hv2
        · subst hveq
          obtain ⟨he, hk⟩ := jvalToU64_ok v y hx
          exact ⟨y, he, hk⟩
        · exact ih ys hr v hv2

theorem unmarshalTIDTypeL_ok (m : List (String × JVal)) (d : String)
    (h : unmarshalTIDTypeL m = .ok d) :
    lookupA m "dtype" = some (JVal.jstr d) ∧ wordSize d ≠ 0 := by
  unfold unmarshalTIDTypeL at h
  cases hl : lookupA m "dtype" with
  | none => rw [hl] at h; exact Except.noConfusion h
  | some v =>
    rw [hl] at h
    cases v with
    | jstr s =>
      replace h : (if wordSize s ≠ 0 then Except.ok s
          else Except.error "invalid \"dtype\" value") = Except.ok d := h
      by_cases hw : wordSize s ≠ 0
      · rw [if_pos hw] at h
        injection h with h
        subst h
        exact ⟨rfl, hw⟩
      · rw [if_neg hw] at h; exact Except.noConfusion h
    | jnat n => exact Except.noConfusion h
    | jbad => exact Except.noConfusion h
    | jarr l => exact Except.noConfusion h
    | jobj o => exact Except.noConfusion h
    | jprim => exact Except.noConfusion h

theorem unmarshalTIShapeL_ok (m : List (String × JVal)) (s : List Nat)
    (h : unmarshalTIShapeL m = .ok s) :
    ∃ l, lookupA m "shape" = some (.jarr l)
      ∧ ∀ v ∈ l, ∃ k, v = JVal.jnat k ∧ k < two64 := by
  unfold unmarshalTIShapeL at h
  cases hl : lookupA m "shape" with
  | none => rw [hl] at h; exact Except.noConfusion h
  | some v =>
    rw [hl] at h
    cases v with
    | jarr l => exact ⟨l, rfl, mapExcept_u64_mem l s h⟩
    | jstr s2 => exact Except.noConfusion h
    | jnat n => exact Except.noConfusion h
    | jbad => exact Except.noConfusion h
    | jobj o => exact Except.noConfusion h
    | jprim => exact Except.noConfusion h

theorem unmarshalTIDataOffsetsL_ok (m : List (String × JVal)) (p : Nat × Nat)
    (h : unmarshalTIDataOffsetsL m = .ok p) :
    ∃ l, lookupA m "data_offsets" = some (.jarr l) ∧ l.length = 2
      ∧ ∀ v ∈ l, ∃ k, v = JVal.jnat k ∧ k < two64 := by
  unfold unmarshalTIDataOffsetsL at h
  cases hl : lookupA m "data_offsets" with
  | none => rw [hl] at h; exact Except.noConfusion h
  | some v =>
    rw [hl] at h
    cases v with
    | jarr l =>
      match l with
      | [x, y] =>
        replace h : (match jvalToU64 x with
            | Except.error e => Except.error e
            | Except.ok a =>
              match jvalToU64 y with
              | Except.error e => Except.error e
              | Except.ok b => Except.ok (a, b)) = Except.ok p := h
        cases hx : jvalToU64 x with
        | error e => rw [hx] at h; exact Except.noConfusion h
        | ok a =>
          rw [hx] at h
          cases hy : jvalToU64 y with
          | error e => rw [hy] at h; exact Except.noConfusion h
          | ok b =>
            obtain ⟨hex, hkx⟩ := jvalToU64_ok x a hx
            obtain ⟨hey, hky⟩ := jvalToU64_ok y b hy
            refine ⟨[x, y], rfl, rfl, ?_⟩
            intro v hv
            rcases List.mem_cons.mp hv with hveq | hv2
            · subst hveq; exact ⟨a, hex, hkx⟩
            · rcases List.mem_cons.mp hv2 with hveq | hv3
              · subst hveq; exact ⟨b, hey, hky⟩
              · exact absurd hv3 (List.not_mem_nil v)
      | [] => exact Except.noConfusion h
      | [x] => exact Except.noConfusion h
      | x :: y :: z :: rest => exact Except.noConfusion h
    | jstr s2 => exact Except.noConfusion h
    | jnat n => exact Except.noConfusion h
    | jbad => exact Except.noConfusion h
    | jobj o => exact Except.noConfusion h
    | jprim => exact Except.noConfusion h

/-- C7 amended: the legacy strict decoder only accepts a tensor entry
that is an object with exactly the three fields dtype (a known string
tag), shape (an array of in-range naturals) and data_offsets (an array
of exactly two in-range naturals) — any missing or extra field,
non-string or unknown dtype, non-array or ill-typed shape or offsets,
or wrongly sized offsets array makes it fail; the current streaming
decoder instead ignores unknown fields and tolerates missing ones
(see the counterexample). -/
theorem c7_legacy_schema (name : String) (raw : List (String × JVal)) (ti : TensorInfoC)
    (h : unmarshalTensorInfoL name (.jobj raw) = .ok ti) :
    tiWellFormed (jmap raw) := by
  replace h : (if (jmap raw).length ≠ 3 then
      Except.error "invalid keys: expected 3 keys (dtype, shape, data_offsets)"
    else
      match unmarshalTIDTypeL (jmap raw) with
      | Except.error e => Except.error e
      | Except.ok d =>
        match unmarshalTIShapeL (jmap raw) with
        | Except.error e => Except.error e
        | Except.ok s =>
          match unmarshalTIDataOffsetsL (jmap raw) with
          | Except.error e => Except.error e
          | Except.ok p =>
            Except.ok (TensorInfoC.mk name d s p.1 p.2)) = Except.ok ti := h
  by_cases hlen : (jmap raw).length ≠ 3
  · rw [if_pos hlen] at h; exact Except.noConfusion h
  · rw [if_neg hlen] at h
    cases hd : unmarshalTIDTypeL (jmap raw) with
    | error e => rw [hd] at h; exact Except.noConfusion h
    | ok d =>
      rw [hd] at h
      cases hs : unmarshalTIShapeL (jmap raw) with
      | error e => rw [hs] at h; exact Except.noConfusion h
      | ok s =>
        rw [hs] at h
        cases hp : unmarshalTIDataOffsetsL (jmap raw) with
        | error e => rw [hp] at h; exact Except.noConfusion h
        | ok p =>
          obtain ⟨hd1, hd2⟩ := unmarshalTIDTypeL_ok (jmap raw) d hd
          exact ⟨by omega, ⟨d, hd1, hd2⟩, unmarshalTIShapeL_ok (jmap raw) s hs,
            unmarshalTIDataOffsetsL_ok (jmap raw) p hp⟩

/-- C7 witness: the well-formed entry `c7goodRaw` decodes strictly and
is indeed well-formed. -/
theorem c7_legacy_schema_witness : tiWellFormed (jmap c7goodRaw) :=
  c7_legacy_schema "t" c7goodRaw ⟨"t", "U8", [1], 0, 1⟩ (by rfl)

theorem le64_le64bytes (m : Nat) (h : m < two64) : le64 (le64bytes m) = m := by
  show ((le64bytes m).take 8).foldr (fun b acc => b + 256 * acc) 0 = m
  have e : le64bytes m = [m % 256, m / 256 % 256, m / 65536 % 256, m / 16777216 % 256,
      m / 4294967296 % 256, m / 1099511627776 % 256, m / 281474976710656 % 256,
      m / 72057594037927936 % 256] := by
    simp [le64bytes, List.range_succ]
  rw [e]
  simp only [List.take, List.foldr]
  unfold two64 at h
  omega

theorem le64bytes_length (m : Nat) : (le64bytes m).length = 8 := by
  simp [le64bytes]

theorem le64_prefix (m : Nat) (h : m < two64) (rest : List Nat) :
    le64 (le64bytes m ++ rest) = m := by
  show ((le64bytes m ++ rest).take 8).foldr (fun b acc => b + 256 * acc) 0 = m
  have : (le64bytes m ++ rest).take 8 = le64bytes m := by
    have h8 : (8 : Nat) = (le64bytes m).length := (le64bytes_length m).symm
    rw [h8]
    exact List.take_left (le64bytes m) rest
  rw [this]
  exact le64_le64bytes m h

theorem scanStr_inv (cs : List Char) (rest : List Nat)
    (h : ∀ c ∈ cs, jsonPlainChar c = true) :
    scanStrChars (cs.map Char.toNat ++ (34 :: rest)) = some (cs, rest) := by
  induction cs with
  | nil => rfl
  | cons c cs2 ih =>
    have hc := h c (by simp)
    simp only [jsonPlainChar, Bool.and_eq_true, decide_eq_true_eq, Bool.not_eq_true',
      decide_eq_false_iff_not] at hc
    obtain ⟨⟨⟨⟨⟨⟨h32, h128⟩, h34⟩, h92⟩, h60⟩, h62⟩, h38⟩ := hc
    show scanStrChars (c.toNat :: (cs2.map Char.toNat ++ (34 :: rest))) = _
    unfold scanStrChars
    rw [if_neg (by simpa using h34), if_neg (by simpa using h92)]
    rw [ih (fun c2 hc2 => h c2 (by simp [hc2]))]
    rw [Char.ofNat_toNat]

theorem natBytesAux_digits (fuel : Nat) : ∀ n, ∀ b ∈ natBytesAux fuel n, 48 ≤ b ∧ b ≤ 57 := by
  induction fuel with
  | zero =>
    intro n b hb
    unfold natBytesAux at hb
    simp only [List.mem_singleton] at hb
    subst hb
    have := Nat.mod_lt n (show 0 < 10 by omega)
    omega
  | succ fuel ih =>
    intro n b hb
    unfold natBytesAux at hb
    by_cases h : n < 10
    · rw [if_pos h] at hb
      simp only [List.mem_singleton] at hb
      subst hb
      omega
    · rw [if_neg h] at hb
      rcases List.mem_append.mp hb with h1 | h1
      · exact ih (n / 10) b h1
      · simp only [List.mem_singleton] at h1
        subst h1
        have := Nat.mod_lt n (show 0 < 10 by omega)
        omega

theorem natBytes_digits (n : Nat) : ∀ b ∈ natBytes n, 48 ≤ b ∧ b ≤ 57 :=
  natBytesAux_digits n n

theorem digitsVal_append_one (ds : List Nat) (d : Nat) :
    digitsVal (ds ++ [d]) = 10 * digitsVal ds + (d - 48) := by
  unfold digitsVal
  rw [List.foldl_append]
  rfl

theorem digitsVal_natBytesAux (fuel : Nat) : ∀ n, n < 10 ^ (fuel + 1) →
    digitsVal (natBytesAux fuel n) = n := by
  induction fuel with
  | zero =>
    intro n h
    unfold natBytesAux digitsVal
    simp only [List.foldl_cons, List.foldl_nil]
    omega
  | succ fuel ih =>
    intro n h
    unfold natBytesAux
    by_cases hn : n < 10
    · rw [if_pos hn]
      unfold digitsVal
      simp only [List.foldl_cons, List.foldl_nil]
      omega
    · rw [if_neg hn]
      rw [digitsVal_append_one]
      rw [ih (n / 10) (by
        have h10 : (10:Nat) ^ (fuel + 1 + 1) = 10 ^ (fuel + 1) * 10 := by ring
        rw [h10] at h
        omega)]
      omega

theorem digitsVal_natBytes (n : Nat) : digitsVal (natBytes n) = n := by
  apply digitsVal_natBytesAux
  calc n < 10 ^ n := Nat.lt_pow_self (by omega) n
  _ ≤ 10 ^ (n + 1) := Nat.pow_le_pow_right (by omega) (by omega)

theorem natBytes_ne_nil (n : Nat) : natBytes n ≠ [] := by
  unfold natBytes
  cases hn : n with
  | zero => simp [natBytesAux]
  | succ m =>
    unfold natBytesAux
    by_cases h : m + 1 < 10
    · rw [if_pos h]; simp
    · rw [if_neg h]; simp

theorem numStop_isByte (rest : List Nat) (h : numStop rest) :
    isByte rest 46 = false ∧ isByte rest 101 = false ∧ isByte rest 69 = false := by
  cases rest with
  | nil => exact ⟨rfl, rfl, rfl⟩
  | cons b r =>
    rcases h with h | h | h <;> subst h <;> exact ⟨rfl, rfl, rfl⟩

theorem scanDigits_span (ds : List Nat) :
    ∀ rest, (∀ b ∈ ds, 48 ≤ b ∧ b ≤ 57) → numStop rest →
    scanDigits (ds ++ rest) = (ds, rest) := by
  induction ds with
  | nil =>
    intro rest _ hstop
    cases rest with
    | nil => rfl
    | cons b r =>
      show scanDigits (b :: r) = ([], b :: r)
      unfold scanDigits
      rw [if_neg (by rcases hstop with h | h | h <;> omega)]
  | cons d ds2 ih =>
    intro rest hd hstop
    have h1 := hd d (by simp)
    show scanDigits (d :: (ds2 ++ rest)) = _
    unfold scanDigits
    rw [if_pos h1]
    rw [ih rest (fun b hb => hd b (by simp [hb])) hstop]

theorem scanNum_digits (d : Nat) (ds2 rest : List Nat)
    (hd48 : 48 ≤ d)
    (hspan : scanDigits ((d :: ds2) ++ rest) = (d :: ds2, rest))
    (hstop : numStop rest) :
    scanNum ((d :: ds2) ++ rest) = .ok (JVal.jnat (digitsVal (d :: ds2)), rest) := by
  obtain ⟨h46, h101, h69⟩ := numStop_isByte rest hstop
  have hneg : isByte (d :: (ds2 ++ rest)) 45 = false := by
    show (d == 45) = false
    exact beq_eq_false_iff_ne.mpr (by omega)
  rw [List.cons_append] at hspan
  simp only [scanNum, List.cons_append, hneg, Bool.false_eq_true, if_false, hspan, h46, h101,
    h69, Bool.or_self, Bool.false_or, Bool.or_false]
  rw [if_neg (List.cons_ne_nil d ds2)]

theorem readVal_natBytes (f : Nat) (n : Nat) (rest : List Nat) (hstop : numStop rest) :
    readVal (f + 1) (natBytes n ++ rest) = .ok (JVal.jnat n, rest) := by
  obtain ⟨b, bs, hnb⟩ : ∃ b bs, natBytes n = b :: bs := by
    cases h : natBytes n with
    | nil => exact absurd h (natBytes_ne_nil n)
    | cons b bs => exact ⟨b, bs, rfl⟩
  have hdig := natBytes_digits n
  have hspan := scanDigits_span (natBytes n) rest hdig hstop
  have hval := digitsVal_natBytes n
  rw [hnb] at hdig hspan hval ⊢
  obtain ⟨hb1, hb2⟩ := hdig b (by simp)
  have hstep : readVal (f + 1) ((b :: bs) ++ rest) = scanNum ((b :: bs) ++ rest) := by
    rw [List.cons_append]
    interval_cases b <;> rfl
  rw [hstep, scanNum_digits b bs rest hb1 hspan hstop, hval]

theorem readVal_jstr (f : Nat) (s : String) (rest : List Nat) (hs : jsonPlain s = true) :
    readVal (f + 1) (34 :: (sBytes s ++ (34 :: rest))) = .ok (JVal.jstr s, rest) := by
  have h1 : scanStrChars (s.data.map Char.toNat ++ (34 :: rest)) = some (s.data, rest) :=
    scanStr_inv s.data rest
      (fun c hc => by
        simp only [jsonPlain, List.all_eq_true] at hs
        exact hs c hc)
  show (match scanStrChars (sBytes s ++ (34 :: rest)) with
    | some (cs, r) => Except.ok (JVal.jstr (String.mk cs), r)
    | none => Except.error "bad string") = _
  rw [show sBytes s = s.data.map Char.toNat from rfl, h1]

theorem readElems_nats (ns : List Nat) :
    ∀ f rest, ns ≠ [] → ns.length < f →
    readElems f (joinBytes [44] (ns.map natBytes) ++ (93 :: rest))
      = .ok (JVal.jarr (ns.map JVal.jnat), rest) := by
  induction ns with
  | nil => intro f rest hne _; exact absurd rfl hne
  | cons x xs ih =>
    intro f rest _ hf
    obtain ⟨g, rfl⟩ : ∃ g, f = g + 2 := ⟨f - 2, by simp at hf; omega⟩
    cases xs with
    | nil =>
      show readElems (g + 2) (natBytes x ++ (93 :: rest)) = _
      unfold readElems
      have h1 := readVal_natBytes g x (93 :: rest) (by right; left; rfl)
      simp only [h1]
      rfl
    | cons y ys =>
      show readElems (g + 2)
          ((natBytes x ++ ([44] ++ joinBytes [44] ((y :: ys).map natBytes))) ++ (93 :: rest)) = _
      rw [List.append_assoc, List.append_assoc, List.singleton_append]
      unfold readElems
      have h1 := readVal_natBytes g x
        (44 :: (joinBytes [44] ((y :: ys).map natBytes) ++ 93 :: rest)) (by left; rfl)
      simp only [h1]
      have h2 := ih (g + 1) rest (by simp) (by simp at hf ⊢; omega)
      simp only [show skipWs (44 :: (joinBytes [44] ((y :: ys).map natBytes) ++ 93 :: rest))
          = 44 :: (joinBytes [44] ((y :: ys).map natBytes) ++ 93 :: rest) from rfl, h2]
      rfl

theorem readVal_natArr (ns : List Nat) (f : Nat) (rest : List Nat) (hf : ns.length < f) :
    readVal (f + 1) (91 :: (joinBytes [44] (ns.map natBytes) ++ (93 :: rest)))
      = .ok (JVal.jarr (ns.map JVal.jnat), rest) := by
  cases ns with
  | nil => rfl
  | cons x xs =>
    obtain ⟨b, bs, hnb⟩ : ∃ b bs, natBytes x = b :: bs := by
      cases h : natBytes x with
      | nil => exact absurd h (natBytes_ne_nil x)
      | cons b bs => exact ⟨b, bs, rfl⟩
    obtain ⟨hb1, hb2⟩ := natBytes_digits x b (by rw [hnb]; exact List.mem_cons_self b bs)
    have hjoin : ∃ T, joinBytes [44] ((x :: xs).map natBytes) ++ (93 :: rest) = b :: T := by
      cases xs with
      | nil => exact ⟨bs ++ (93 :: rest), by show natBytes x ++ _ = _; rw [hnb]; rfl⟩
      | cons y ys =>
        refine ⟨bs ++ (([44] ++ joinBytes [44] ((y :: ys).map natBytes)) ++ (93 :: rest)), ?_⟩
        show (natBytes x ++ ([44] ++ joinBytes [44] ((y :: ys).map natBytes))) ++ (93 :: rest) = _
        rw [hnb]
        simp [List.append_assoc]
    obtain ⟨T, hT⟩ := hjoin
    rw [hT]
    have hdisp : readVal (f + 1) (91 :: (b :: T)) = readElems f (b :: T) := by
      interval_cases b <;> rfl
    rw [hdisp, ← hT]
    exact readElems_nats (x :: xs) f rest (by simp) hf

theorem readMembers_key (f : Nat) (k : String) (vrest : List Nat)
    (hk : jsonPlain k = true) :
    readMembers (f + 1) (34 :: (sBytes k ++ (34 :: (58 :: vrest))))
      = (match readVal f vrest with
        | .error e => .error e
        | .ok (v, r3) =>
          match skipWs r3 with
          | 44 :: r4 =>
            (match readMembers f r4 with
              | .ok (JVal.jobj ms, r5) => .ok (JVal.jobj ((k, v) :: ms), r5)
              | .ok _ => .error "impossible"
              | .error e => .error e)
          | 125 :: r4 => .ok (JVal.jobj [(k, v)], r4)
          | _ => .error "expected comma or end of object") := by
  have h1 : scanStrChars (sBytes k ++ (34 :: (58 :: vrest))) = some (k.data, 58 :: vrest) := by
    rw [show sBytes k = k.data.map Char.toNat from rfl]
    exact scanStr_inv k.data (58 :: vrest) (fun c hc => by
      simp only [jsonPlain, List.all_eq_true] at hk
      exact hk c hc)
  show (match scanStrChars (sBytes k ++ (34 :: (58 :: vrest))) with
    | none => (Except.error "bad string" : Except String (JVal × List Nat))
    | some (cs, r1) =>
      match skipWs r1 with
      | 58 :: r2 =>
        match readVal f r2 with
        | .error e => .error e
        | .ok (v, r3) =>
          match skipWs r3 with
          | 44 :: r4 =>
            (match readMembers f r4 with
              | .ok (JVal.jobj ms, r5) => .ok (JVal.jobj ((String.mk cs, v) :: ms), r5)
              | .ok _ => .error "impossible"
              | .error e => .error e)
          | 125 :: r4 => .ok (JVal.jobj [(String.mk cs, v)], r4)
          | _ => .error "expected comma or end of object"
      | _ => .error "expected colon") = _
  rw [h1]
  rfl

theorem marshalInfo_norm (t : TensorInfoC) (rest : List Nat) :
    marshalInfo t ++ rest = infoBytesN t rest := by
  simp only [marshalInfo, infoBytesN, infoTail0, infoTail1, infoTail2b, infoTail2, infoTail3,
    show sBytes "\x7b\"dtype\":\"" = [123, 34, 100, 116, 121, 112, 101, 34, 58, 34] from rfl,
    show sBytes "\",\"shape\":[" = [34, 44, 34, 115, 104, 97, 112, 101, 34, 58, 91] from rfl,
    show sBytes "],\"data_offsets\":["
      = [93, 44, 34, 100, 97, 116, 97, 95, 111, 102, 102, 115, 101, 116, 115, 34, 58, 91] from rfl,
    show sBytes "]\x7d" = [93, 125] from rfl,
    show sBytes "," = [44] from rfl,
    show sBytes "dtype" = [100, 116, 121, 112, 101] from rfl,
    show sBytes "shape" = [115, 104, 97, 112, 101] from rfl,
    show sBytes "data_offsets"
      = [100, 97, 116, 97, 95, 111, 102, 102, 115, 101, 116, 115] from rfl,
    List.cons_append, List.nil_append, List.append_assoc]

theorem readVal_info (t : TensorInfoC) (f : Nat) (rest : List Nat)
    (hdt : jsonPlain t.dtype = true) (hf : infoFuel t ≤ f) :
    readVal (f + 1) (marshalInfo t ++ rest) = .ok (infoJ t, rest) := by
  obtain ⟨g, rfl⟩ : ∃ g, f = g + 6 := ⟨f - 6, by simp [infoFuel] at hf; omega⟩
  simp only [infoFuel] at hf
  rw [marshalInfo_norm]
  have hv : readVal (g + 5) (infoTail0 t rest)
      = .ok (JVal.jstr t.dtype, 44 :: infoTail1 t rest) :=
    readVal_jstr (g + 4) t.dtype (44 :: infoTail1 t rest) hdt
  have h3 : readVal (g + 4) (infoTail2b t rest)
      = .ok (JVal.jarr (t.shape.map JVal.jnat), 44 :: infoTail2 t rest) :=
    readVal_natArr t.shape (g + 3) (44 :: infoTail2 t rest) (by omega)
  have h5 : readVal (g + 3) (infoTail3 t rest)
      = .ok (JVal.jarr [JVal.jnat t.off0, JVal.jnat t.off1], 125 :: rest) := by
    have h := readVal_natArr [t.off0, t.off1] (g + 2) (125 :: rest)
      (by simp only [List.length_cons, List.length_nil]; omega)
    have heq : (91 : Nat) :: (joinBytes [44] ([t.off0, t.off1].map natBytes) ++ (93 :: (125 :: rest)))
        = infoTail3 t rest := by
      show (91 : Nat) :: ((natBytes t.off0 ++ ([44] ++ natBytes t.off1)) ++ (93 :: (125 :: rest)))
        = _
      simp [infoTail3]
    rw [heq] at h
    exact h
  have hm3 : readMembers (g + 4) (infoTail2 t rest)
      = .ok (JVal.jobj [("data_offsets", JVal.jarr [JVal.jnat t.off0, JVal.jnat t.off1])], rest) := by
    have hk := readMembers_key (g + 3) "data_offsets" (infoTail3 t rest) rfl
    rw [h5] at hk
    exact hk
  have hm2 : readMembers (g + 5) (infoTail1 t rest)
      = .ok (JVal.jobj [("shape", JVal.jarr (t.shape.map JVal.jnat)),
          ("data_offsets", JVal.jarr [JVal.jnat t.off0, JVal.jnat t.off1])], rest) := by
    have hk := readMembers_key (g + 4) "shape" (infoTail2b t rest) rfl
    rw [h3] at hk
    replace hk : readMembers (g + 4 + 1) (34 :: (sBytes "shape" ++ (34 :: (58 :: infoTail2b t rest))))
        = (match readMembers (g + 4) (infoTail2 t rest) with
          | .ok (JVal.jobj ms, r5) =>
            .ok (JVal.jobj (("shape", JVal.jarr (t.shape.map JVal.jnat)) :: ms), r5)
          | .ok _ => .error "impossible"
          | .error e => .error e) := hk
    rw [hm3] at hk
    exact hk
  have hm0 : readMembers (g + 5 + 1) (34 :: (sBytes "dtype" ++ (34 :: (58 :: infoTail0 t rest))))
      = .ok (infoJ t, rest) := by
    have hk := readMembers_key (g + 5) "dtype" (infoTail0 t rest) rfl
    rw [hv] at hk
    replace hk : readMembers (g + 5 + 1) (34 :: (sBytes "dtype" ++ (34 :: (58 :: infoTail0 t rest))))
        = (match readMembers (g + 5) (infoTail1 t rest) with
          | .ok (JVal.jobj ms, r5) =>
            .ok (JVal.jobj (("dtype", JVal.jstr t.dtype) :: ms), r5)
          | .ok _ => .error "impossible"
          | .error e => .error e) := hk
    rw [hm2] at hk
    exact hk
  calc readVal (g + 6 + 1) (infoBytesN t rest)
      = readMembers (g + 5 + 1) (34 :: (sBytes "dtype" ++ (34 :: (58 :: infoTail0 t rest)))) := rfl
    _ = .ok (infoJ t, rest) := hm0


theorem skipWs_spaces (k : Nat) : skipWs (spaceBytes k) = [] := by
  induction k with
  | zero => rfl
  | succ n ih =>
    show skipWs (List.replicate (n + 1) 32) = []
    rw [List.replicate_succ]
    show skipWs (List.replicate n 32) = []
    exact ih

theorem readMembers_infos (infos : List TensorInfoC) :
    ∀ f rest, infos ≠ [] → entriesFuel infos ≤ f →
    (∀ t ∈ infos, jsonPlain t.name = true ∧ jsonPlain t.dtype = true) →
    readMembers f
      (joinBytes [44] (infos.map (fun w => quoteBytes w.name ++ (sBytes ":" ++ marshalInfo w)))
        ++ (125 :: rest))
      = .ok (JVal.jobj (infos.map (fun w => (w.name, infoJ w))), rest) := by
  induction infos with
  | nil => intro f rest hne _ _; exact absurd rfl hne
  | cons t ts ih =>
    intro f rest _ hfuel hall
    have hp := hall t (by simp)
    cases ts with
    | nil =>
      simp only [entriesFuel] at hfuel
      obtain ⟨F, rfl⟩ : ∃ F, f = F + 2 := ⟨f - 2, by omega⟩
      show readMembers (F + 2)
          ((quoteBytes t.name ++ (sBytes ":" ++ marshalInfo t)) ++ (125 :: rest))
        = .ok (JVal.jobj [(t.name, infoJ t)], rest)
      rw [show (quoteBytes t.name ++ (sBytes ":" ++ marshalInfo t)) ++ (125 :: rest)
          = 34 :: (sBytes t.name ++ (34 :: (58 :: (marshalInfo t ++ (125 :: rest))))) from by
        simp only [quoteBytes, show sBytes ":" = [58] from rfl, List.cons_append,
          List.nil_append, List.append_assoc]]
      have hv : readVal (F + 1) (marshalInfo t ++ (125 :: rest)) = .ok (infoJ t, 125 :: rest) :=
        readVal_info t F (125 :: rest) hp.2 (by omega)
      have hk := readMembers_key (F + 1) t.name (marshalInfo t ++ (125 :: rest)) hp.1
      rw [hv] at hk
      exact hk
    | cons u us =>
      simp only [entriesFuel] at hfuel
      obtain ⟨F, rfl⟩ : ∃ F, f = F + 2 := ⟨f - 2, by omega⟩
      show readMembers (F + 2)
          (((quoteBytes t.name ++ (sBytes ":" ++ marshalInfo t))
              ++ ([44] ++ joinBytes [44] ((u :: us).map
                (fun w => quoteBytes w.name ++ (sBytes ":" ++ marshalInfo w)))))
            ++ (125 :: rest))
        = .ok (JVal.jobj ((t.name, infoJ t) ::
            (u :: us).map (fun w => (w.name, infoJ w))), rest)
      rw [show (((quoteBytes t.name ++ (sBytes ":" ++ marshalInfo t))
              ++ ([44] ++ joinBytes [44] ((u :: us).map
                (fun w => quoteBytes w.name ++ (sBytes ":" ++ marshalInfo w)))))
            ++ (125 :: rest))
          = 34 :: (sBytes t.name ++ (34 :: (58 :: (marshalInfo t
              ++ (44 :: (joinBytes [44] ((u :: us).map
                (fun w => quoteBytes w.name ++ (sBytes ":" ++ marshalInfo w)))
                ++ (125 :: rest))))))) from by
        simp only [quoteBytes, show sBytes ":" = [58] from rfl, List.cons_append,
          List.nil_append, List.append_assoc]]
      have hv : readVal (F + 1)
          (marshalInfo t ++ (44 :: (joinBytes [44] ((u :: us).map
            (fun w => quoteBytes w.name ++ (sBytes ":" ++ marshalInfo w))) ++ (125 :: rest))))
          = .ok (infoJ t, 44 :: (joinBytes [44] ((u :: us).map
            (fun w => quoteBytes w.name ++ (sBytes ":" ++ marshalInfo w))) ++ (125 :: rest))) :=
        readVal_info t F _ hp.2 (by omega)
      have hk := readMembers_key (F + 1) t.name
        (marshalInfo t ++ (44 :: (joinBytes [44] ((u :: us).map
          (fun w => quoteBytes w.name ++ (sBytes ":" ++ marshalInfo w))) ++ (125 :: rest)))) hp.1
      rw [hv] at hk
      replace hk : readMembers (F + 1 + 1)
          (34 :: (sBytes t.name ++ (34 :: (58 :: (marshalInfo t
            ++ (44 :: (joinBytes [44] ((u :: us).map
              (fun w => quoteBytes w.name ++ (sBytes ":" ++ marshalInfo w)))
              ++ (125 :: rest))))))))
          = (match readMembers (F + 1)
              (joinBytes [44] ((u :: us).map
                (fun w => quoteBytes w.name ++ (sBytes ":" ++ marshalInfo w)))
                ++ (125 :: rest)) with
            | .ok (JVal.jobj ms, r5) => .ok (JVal.jobj ((t.name, infoJ t) :: ms), r5)
            | .ok _ => .error "impossible"
            | .error e => .error e) := hk
      rw [ih (F + 1) rest (by simp) (by simp only [entriesFuel]; omega)
        (fun w hw => hall w (List.mem_cons_of_mem t hw))] at hk
      exact hk

theorem readMembers_strPairs (ps : List (String × String)) :
    ∀ f rest, ps ≠ [] → 2 * ps.length + 2 ≤ f →
    (∀ p ∈ ps, jsonPlain p.1 = true ∧ jsonPlain p.2 = true) →
    readMembers f
      (joinBytes [44] (ps.map (fun w => quoteBytes w.1 ++ (sBytes ":" ++ quoteBytes w.2)))
        ++ (125 :: rest))
      = .ok (JVal.jobj (ps.map (fun w => (w.1, JVal.jstr w.2))), rest) := by
  induction ps with
  | nil => intro f rest hne _ _; exact absurd rfl hne
  | cons p qs ih =>
    intro f rest _ hfuel hall
    have hp := hall p (by simp)
    cases qs with
    | nil =>
      obtain ⟨F, rfl⟩ : ∃ F, f = F + 2 :=
        ⟨f - 2, by simp only [List.length_cons, List.length_nil] at hfuel; omega⟩
      show readMembers (F + 2)
          ((quoteBytes p.1 ++ (sBytes ":" ++ quoteBytes p.2)) ++ (125 :: rest))
        = .ok (JVal.jobj [(p.1, JVal.jstr p.2)], rest)
      rw [show (quoteBytes p.1 ++ (sBytes ":" ++ quoteBytes p.2)) ++ (125 :: rest)
          = 34 :: (sBytes p.1 ++ (34 :: (58 :: (34 :: (sBytes p.2 ++ (34 :: (125 :: rest)))))))
          from by
        simp only [quoteBytes, show sBytes ":" = [58] from rfl, List.cons_append,
          List.nil_append, List.append_assoc]]
      have hv : readVal (F + 1) (34 :: (sBytes p.2 ++ (34 :: (125 :: rest))))
          = .ok (JVal.jstr p.2, 125 :: rest) :=
        readVal_jstr F p.2 (125 :: rest) hp.2
      have hk := readMembers_key (F + 1) p.1 (34 :: (sBytes p.2 ++ (34 :: (125 :: rest)))) hp.1
      rw [hv] at hk
      exact hk
    | cons q rs =>
      obtain ⟨F, rfl⟩ : ∃ F, f = F + 2 :=
        ⟨f - 2, by simp only [List.length_cons] at hfuel; omega⟩
      show readMembers (F + 2)
          (((quoteBytes p.1 ++ (sBytes ":" ++ quoteBytes p.2))
              ++ ([44] ++ joinBytes [44] ((q :: rs).map
                (fun w => quoteBytes w.1 ++ (sBytes ":" ++ quoteBytes w.2)))))
            ++ (125 :: rest))
        = .ok (JVal.jobj ((p.1, JVal.jstr p.2) ::
            (q :: rs).map (fun w => (w.1, JVal.jstr w.2))), rest)
      rw [show (((quoteBytes p.1 ++ (sBytes ":" ++ quoteBytes p.2))
              ++ ([44] ++ joinBytes [44] ((q :: rs).map
                (fun w => quoteBytes w.1 ++ (sBytes ":" ++ quoteBytes w.2)))))
            ++ (125 :: rest))
          = 34 :: (sBytes p.1 ++ (34 :: (58 :: (34 :: (sBytes p.2
              ++ (34 :: (44 :: (joinBytes [44] ((q :: rs).map
                (fun w => quoteBytes w.1 ++ (sBytes ":" ++ quoteBytes w.2)))
                ++ (125 :: rest))))))))) from by
        simp only [quoteBytes, show sBytes ":" = [58] from rfl, List.cons_append,
          List.nil_append, List.append_assoc]]
      have hv : readVal (F + 1)
          (34 :: (sBytes p.2 ++ (34 :: (44 :: (joinBytes [44] ((q :: rs).map
            (fun w => quoteBytes w.1 ++ (sBytes ":" ++ quoteBytes w.2))) ++ (125 :: rest))))))
          = .ok (JVal.jstr p.2, 44 :: (joinBytes [44] ((q :: rs).map
            (fun w => quoteBytes w.1 ++ (sBytes ":" ++ quoteBytes w.2))) ++ (125 :: rest))) :=
        readVal_jstr F p.2 _ hp.2
      have hk := readMembers_key (F + 1) p.1
        (34 :: (sBytes p.2 ++ (34 :: (44 :: (joinBytes [44] ((q :: rs).map
          (fun w => quoteBytes w.1 ++ (sBytes ":" ++ quoteBytes w.2))) ++ (125 :: rest))))))
        hp.1
      rw [hv] at hk
      replace hk : readMembers (F + 1 + 1)
          (34 :: (sBytes p.1 ++ (34 :: (58 :: (34 :: (sBytes p.2
            ++ (34 :: (44 :: (joinBytes [44] ((q :: rs).map
              (fun w => quoteBytes w.1 ++ (sBytes ":" ++ quoteBytes w.2)))
              ++ (125 :: rest))))))))))
          = (match readMembers (F + 1)
              (joinBytes [44] ((q :: rs).map
                (fun w => quoteBytes w.1 ++ (sBytes ":" ++ quoteBytes w.2)))
                ++ (125 :: rest)) with
            | .ok (JVal.jobj ms, r5) => .ok (JVal.jobj ((p.1, JVal.jstr p.2) :: ms), r5)
            | .ok _ => .error "impossible"
            | .error e => .error e) := hk
      rw [ih (F + 1) rest (by simp) (by simp only [List.length_cons] at hfuel ⊢; omega)
        (fun w hw => hall w (List.mem_cons_of_mem p hw))] at hk
      exact hk

theorem readVal_strMap (md : List (String × String)) (f : Nat) (rest : List Nat)
    (hne : md ≠ []) (hf : 2 * md.length + 3 ≤ f)
    (hp : ∀ p ∈ md, jsonPlain p.1 = true ∧ jsonPlain p.2 = true) :
    readVal (f + 1) (marshalStrMap md ++ rest)
      = .ok (JVal.jobj ((sortPairs md).map (fun w => (w.1, JVal.jstr w.2))), rest) := by
  have hperm : List.Perm (sortPairs md) md := List.perm_insertionSort _ md
  obtain ⟨q, qs, hsort⟩ : ∃ q qs, sortPairs md = q :: qs := by
    cases hs : sortPairs md with
    | nil =>
      exfalso
      have hlen := hperm.length_eq
      rw [hs] at hlen
      cases md with
      | nil => exact hne rfl
      | cons a as => simp at hlen
    | cons q qs => exact ⟨q, qs, rfl⟩
  have hlen : (q :: qs).length = md.length := by rw [← hsort]; exact hperm.length_eq
  have hnorm : marshalStrMap md ++ rest
      = 123 :: (joinBytes [44] ((sortPairs md).map
          (fun w => quoteBytes w.1 ++ (sBytes ":" ++ quoteBytes w.2))) ++ (125 :: rest)) := by
    simp only [marshalStrMap, show sBytes "\x7b" = [123] from rfl,
      show sBytes "\x7d" = [125] from rfl, show sBytes "," = [44] from rfl,
      List.cons_append, List.nil_append, List.append_assoc]
  rw [hnorm, hsort]
  have hdisp : readVal (f + 1)
      (123 :: (joinBytes [44] ((q :: qs).map
        (fun w => quoteBytes w.1 ++ (sBytes ":" ++ quoteBytes w.2))) ++ (125 :: rest)))
      = readMembers f
        (joinBytes [44] ((q :: qs).map
          (fun w => quoteBytes w.1 ++ (sBytes ":" ++ quoteBytes w.2))) ++ (125 :: rest)) := by
    cases qs with
    | nil => rfl
    | cons => rfl
  rw [hdisp]
  exact readMembers_strPairs (q :: qs) f rest (by simp)
    (by simp only [List.length_cons] at hlen ⊢; omega)
    (fun w hw => hp w (hperm.mem_iff.mp (by rw [hsort]; exact hw)))

theorem readVal_header (md : List (String × String)) (infos : List TensorInfoC)
    (f : Nat) (rest : List Nat) (hne : infos ≠ [])
    (hf : 2 * md.length + entriesFuel infos + 4 ≤ f)
    (hmd : ∀ p ∈ md, jsonPlain p.1 = true ∧ jsonPlain p.2 = true)
    (hinf : ∀ t ∈ infos, jsonPlain t.name = true ∧ jsonPlain t.dtype = true) :
    readVal (f + 1) (marshalHeader md infos ++ rest)
      = .ok (JVal.jobj (headerEntriesJ md infos), rest) := by
  obtain ⟨t, ts, rfl⟩ : ∃ t ts, infos = t :: ts := by
    cases infos with
    | nil => exact absurd rfl hne
    | cons t ts => exact ⟨t, ts, rfl⟩
  cases md with
  | nil =>
    have hnorm : marshalHeader [] (t :: ts) ++ rest
        = 123 :: (joinBytes [44] ((t :: ts).map
            (fun w => quoteBytes w.name ++ (sBytes ":" ++ marshalInfo w))) ++ (125 :: rest)) := by
      simp [marshalHeader, show sBytes "\x7b" = [123] from rfl,
        show sBytes "\x7d" = [125] from rfl, show sBytes "," = [44] from rfl]
    rw [hnorm]
    have hdisp : readVal (f + 1)
        (123 :: (joinBytes [44] ((t :: ts).map
          (fun w => quoteBytes w.name ++ (sBytes ":" ++ marshalInfo w))) ++ (125 :: rest)))
        = readMembers f
          (joinBytes [44] ((t :: ts).map
            (fun w => quoteBytes w.name ++ (sBytes ":" ++ marshalInfo w))) ++ (125 :: rest)) := by
      cases ts with
      | nil => rfl
      | cons => rfl
    rw [hdisp]
    exact readMembers_infos (t :: ts) f rest (by simp) (by omega) hinf
  | cons m ms =>
    obtain ⟨F, rfl⟩ : ∃ F, f = F + 2 := ⟨f - 2, by simp only [entriesFuel] at hf; omega⟩
    have hnorm : marshalHeader (m :: ms) (t :: ts) ++ rest
        = 123 :: (34 :: (sBytes "__metadata__" ++ (34 :: (58 :: (marshalStrMap (m :: ms)
            ++ (44 :: (joinBytes [44] ((t :: ts).map
              (fun w => quoteBytes w.name ++ (sBytes ":" ++ marshalInfo w)))
              ++ (125 :: rest)))))))) := by
      simp [marshalHeader, joinBytes,
        show sBytes "\"__metadata__\":"
          = [34, 95, 95, 109, 101, 116, 97, 100, 97, 116, 97, 95, 95, 34, 58] from rfl,
        show sBytes "__metadata__"
          = [95, 95, 109, 101, 116, 97, 100, 97, 116, 97, 95, 95] from rfl,
        show sBytes "\x7b" = [123] from rfl, show sBytes "\x7d" = [125] from rfl,
        show sBytes "," = [44] from rfl]
    rw [hnorm]
    have hv : readVal (F + 1) (marshalStrMap (m :: ms)
        ++ (44 :: (joinBytes [44] ((t :: ts).map
          (fun w => quoteBytes w.name ++ (sBytes ":" ++ marshalInfo w))) ++ (125 :: rest))))
        = .ok (JVal.jobj ((sortPairs (m :: ms)).map (fun w => (w.1, JVal.jstr w.2))),
            44 :: (joinBytes [44] ((t :: ts).map
              (fun w => quoteBytes w.name ++ (sBytes ":" ++ marshalInfo w))) ++ (125 :: rest))) :=
      readVal_strMap (m :: ms) F _ (by simp) (by simp only [entriesFuel] at hf; omega) hmd
    have hk := readMembers_key (F + 1) "__metadata__"
      (marshalStrMap (m :: ms) ++ (44 :: (joinBytes [44] ((t :: ts).map
        (fun w => quoteBytes w.name ++ (sBytes ":" ++ marshalInfo w))) ++ (125 :: rest)))) rfl
    rw [hv] at hk
    replace hk : readMembers (F + 1 + 1)
        (34 :: (sBytes "__metadata__" ++ (34 :: (58 :: (marshalStrMap (m :: ms)
          ++ (44 :: (joinBytes [44] ((t :: ts).map
            (fun w => quoteBytes w.name ++ (sBytes ":" ++ marshalInfo w)))
            ++ (125 :: rest))))))))
        = (match readMembers (F + 1)
            (joinBytes [44] ((t :: ts).map
              (fun w => quoteBytes w.name ++ (sBytes ":" ++ marshalInfo w)))
              ++ (125 :: rest)) with
          | .ok (JVal.jobj ms2, r5) => .ok (JVal.jobj (("__metadata__",
              JVal.jobj ((sortPairs (m :: ms)).map (fun w => (w.1, JVal.jstr w.2)))) :: ms2), r5)
          | .ok _ => .error "impossible"
          | .error e => .error e) := hk
    rw [readMembers_infos (t :: ts) (F + 1) rest (by simp)
      (by simp only [entriesFuel] at hf ⊢; omega) hinf] at hk
    exact hk


theorem natBytes_len_pos (n : Nat) : 0 < (natBytes n).length :=
  List.length_pos.mpr (natBytes_ne_nil n)

theorem joinNat_len (ns : List Nat) :
    ns.length ≤ (joinBytes [44] (ns.map natBytes)).length + 1 := by
  induction ns with
  | nil => simp
  | cons x xs ih =>
    cases xs with
    | nil =>
      show (1 : Nat) ≤ (natBytes x).length + 1
      omega
    | cons y ys =>
      have h1 := natBytes_len_pos x
      have h2 : (joinBytes [44] ((x :: y :: ys).map natBytes)).length
          = (natBytes x).length + 1 + (joinBytes [44] ((y :: ys).map natBytes)).length := by
        show (natBytes x ++ ([44] ++ joinBytes [44] ((y :: ys).map natBytes))).length = _
        simp [List.length_append]
        omega
      simp only [List.length_cons] at ih ⊢
      omega

theorem marshalInfo_len (t : TensorInfoC) :
    t.shape.length + 42 ≤ (marshalInfo t).length := by
  have h0 := natBytes_len_pos t.off0
  have h1 := natBytes_len_pos t.off1
  have h2 := joinNat_len t.shape
  simp only [marshalInfo, List.length_append,
    show (sBytes "\x7b\"dtype\":\"").length = 10 from rfl,
    show (sBytes "\",\"shape\":[").length = 11 from rfl,
    show (sBytes "],\"data_offsets\":[").length = 18 from rfl,
    show (sBytes "]\x7d").length = 2 from rfl,
    show sBytes "," = [44] from rfl,
    show (([44] : List Nat)).length = 1 from rfl]
  omega

theorem quoteBytes_len (s : String) : (quoteBytes s).length = (sBytes s).length + 2 := by
  simp [quoteBytes]

theorem entriesJoin_len (infos : List TensorInfoC) (hne : infos ≠ []) :
    entriesFuel infos ≤ (joinBytes [44] (infos.map
      (fun w => quoteBytes w.name ++ (sBytes ":" ++ marshalInfo w)))).length := by
  induction infos with
  | nil => exact absurd rfl hne
  | cons t ts ih =>
    have hm := marshalInfo_len t
    cases ts with
    | nil =>
      show entriesFuel [t] ≤ (quoteBytes t.name ++ (sBytes ":" ++ marshalInfo t)).length
      simp only [entriesFuel, infoFuel, quoteBytes, List.length_append, List.length_cons,
        List.length_nil, show (sBytes ":").length = 1 from rfl]
      omega
    | cons u us =>
      have hih := ih (by simp)
      show entriesFuel (t :: u :: us)
          ≤ ((quoteBytes t.name ++ (sBytes ":" ++ marshalInfo t))
              ++ ([44] ++ joinBytes [44] ((u :: us).map
                (fun (w : TensorInfoC) =>
                  quoteBytes w.name ++ (sBytes ":" ++ marshalInfo w))))).length
      have hq := quoteBytes_len t.name
      simp only [entriesFuel, infoFuel, List.length_append, List.length_cons,
        List.length_nil, show (sBytes ":").length = 1 from rfl]
      simp only [entriesFuel, infoFuel] at hih
      omega

theorem strPairsJoin_len (ps : List (String × String)) (hne : ps ≠ []) :
    2 * ps.length ≤ (joinBytes [44] (ps.map
      (fun w => quoteBytes w.1 ++ (sBytes ":" ++ quoteBytes w.2)))).length + 1 := by
  induction ps with
  | nil => exact absurd rfl hne
  | cons p qs ih =>
    cases qs with
    | nil =>
      show 2 * [p].length ≤ (quoteBytes p.1 ++ (sBytes ":" ++ quoteBytes p.2)).length + 1
      simp only [List.length_cons, List.length_nil, quoteBytes, List.length_append,
        show (sBytes ":").length = 1 from rfl]
      omega
    | cons q rs =>
      have hih := ih (by simp)
      show 2 * (p :: q :: rs).length
          ≤ ((quoteBytes p.1 ++ (sBytes ":" ++ quoteBytes p.2))
              ++ ([44] ++ joinBytes [44] ((q :: rs).map
                (fun (w : String × String) =>
                  quoteBytes w.1 ++ (sBytes ":" ++ quoteBytes w.2))))).length + 1
      have hq1 := quoteBytes_len p.1
      have hq2 := quoteBytes_len p.2
      simp only [List.length_cons, List.length_nil, List.length_append,
        show (sBytes ":").length = 1 from rfl]
      simp only [List.length_cons] at hih
      omega

theorem marshalHeader_fuel (md : List (String × String)) (infos : List TensorInfoC)
    (hne : infos ≠ []) :
    2 * md.length + entriesFuel infos + 4 ≤ 2 * (marshalHeader md infos).length + 7 := by
  have hj := entriesJoin_len infos hne
  cases md with
  | nil =>
    have hlen : (marshalHeader [] infos).length
        = (joinBytes [44] (infos.map
            (fun (w : TensorInfoC) =>
              quoteBytes w.name ++ (sBytes ":" ++ marshalInfo w)))).length + 2 := by
      simp [marshalHeader, show sBytes "," = [44] from rfl,
        show (sBytes "\x7b").length = 1 from rfl,
        show (sBytes "\x7d").length = 1 from rfl]
      omega
    simp only [List.length_nil]
    omega
  | cons m ms =>
    obtain ⟨t, ts, rfl⟩ : ∃ t ts, infos = t :: ts := by
      cases infos with
      | nil => exact absurd rfl hne
      | cons t ts => exact ⟨t, ts, rfl⟩
    have hpl : (sortPairs (m :: ms)).length = (m :: ms).length :=
      (List.perm_insertionSort _ (m :: ms)).length_eq
    have hne2 : sortPairs (m :: ms) ≠ [] := by
      intro h
      rw [h] at hpl
      simp at hpl
    have hsp := strPairsJoin_len (sortPairs (m :: ms)) hne2
    have hhdr : (marshalHeader (m :: ms) (t :: ts)).length
        = (joinBytes [44] ((sortPairs (m :: ms)).map
            (fun (w : String × String) =>
              quoteBytes w.1 ++ (sBytes ":" ++ quoteBytes w.2)))).length
          + (joinBytes [44] ((t :: ts).map
            (fun (w : TensorInfoC) =>
              quoteBytes w.name ++ (sBytes ":" ++ marshalInfo w)))).length + 20 := by
      simp [marshalHeader, marshalStrMap, joinBytes,
        show sBytes "," = [44] from rfl,
        show (sBytes "\"__metadata__\":").length = 15 from rfl,
        show (sBytes "\x7b").length = 1 from rfl,
        show (sBytes "\x7d").length = 1 from rfl,
        show (sBytes ",").length = 1 from rfl]
      omega
    omega

theorem jsonRead_header (md : List (String × String)) (infos : List TensorInfoC)
    (hne : infos ≠ [])
    (hmd : ∀ p ∈ md, jsonPlain p.1 = true ∧ jsonPlain p.2 = true)
    (hinf : ∀ t ∈ infos, jsonPlain t.name = true ∧ jsonPlain t.dtype = true) :
    jsonRead (padHeader (marshalHeader md infos))
      = .ok (JVal.jobj (headerEntriesJ md infos)) := by
  obtain ⟨hmod, k, hk8, hpad⟩ := padHeader_spec (marshalHeader md infos)
  rw [hpad]
  have hfuel := marshalHeader_fuel md infos hne
  have hv : readVal (2 * (marshalHeader md infos ++ spaceBytes k).length + 8)
      (marshalHeader md infos ++ spaceBytes k)
      = .ok (JVal.jobj (headerEntriesJ md infos), spaceBytes k) :=
    readVal_header md infos (2 * (marshalHeader md infos ++ spaceBytes k).length + 7)
      (spaceBytes k) hne (by simp only [List.length_append]; omega) hmd hinf
  show (match readVal (2 * (marshalHeader md infos ++ spaceBytes k).length + 8)
      (marshalHeader md infos ++ spaceBytes k) with
    | .error e => (Except.error e : Except String JVal)
    | .ok (v, r) =>
      if skipWs r = [] then Except.ok v else Except.error "unexpected trailing data") = _
  rw [hv]
  show (if skipWs (spaceBytes k) = [] then Except.ok (JVal.jobj (headerEntriesJ md infos))
    else (Except.error "unexpected trailing data" : Except String JVal)) = _
  rw [skipWs_spaces k]
  rfl


theorem wordSize_jsonPlain (s : String) (h : wordSize s ≠ 0) : jsonPlain s = true := by
  unfold wordSize at h
  split at h
  all_goals first
    | rfl
    | exact absurd rfl h

theorem mapExcept_decodeU64 (ns : List Nat) (h : ∀ n ∈ ns, n < two64) :
    mapExcept decodeU64 (ns.map JVal.jnat) = .ok ns := by
  induction ns with
  | nil => rfl
  | cons x xs ih =>
    have hx := h x (by simp)
    simp only [List.map_cons]
    simp only [mapExcept]
    rw [show decodeU64 (JVal.jnat x) = .ok x from by
        show (if x < two64 then Except.ok x
          else (Except.error "number out of range of uint64" : Except String Nat)) = _
        rw [if_pos hx],
      ih (fun n hn => h n (List.mem_cons_of_mem x hn))]

theorem decodeTI_infoJ (t : TensorInfoC) (hdt : wordSize t.dtype ≠ 0)
    (hdims : ∀ n ∈ t.shape, n < two64) (h0 : t.off0 < two64) (h1 : t.off1 < two64) :
    decodeTensorInfoC t.name (infoJ t) = .ok t := by
  have hdd : decodeDType (JVal.jstr t.dtype) = .ok t.dtype := by
    show (if wordSize t.dtype ≠ 0 then Except.ok t.dtype
      else Except.error ("\"" ++ t.dtype ++ "\" is not a valid DType")) = _
    rw [if_pos hdt]
  have hd : applyTIField ⟨t.name, "", [], 0, 0⟩ "dtype" (JVal.jstr t.dtype)
      = .ok ⟨t.name, t.dtype, [], 0, 0⟩ := by
    unfold applyTIField
    rw [if_pos rfl, hdd]
    rfl
  have hsl : decodeU64List (JVal.jarr (t.shape.map JVal.jnat)) = .ok t.shape :=
    mapExcept_decodeU64 t.shape hdims
  have hs : applyTIField ⟨t.name, t.dtype, [], 0, 0⟩ "shape" (JVal.jarr (t.shape.map JVal.jnat))
      = .ok ⟨t.name, t.dtype, t.shape, 0, 0⟩ := by
    unfold applyTIField
    rw [if_neg (by decide : ¬("shape" = "dtype")), if_pos rfl, hsl]
    rfl
  have ha : decodeOffsetAt [JVal.jnat t.off0, JVal.jnat t.off1] 0 = .ok t.off0 := by
    show decodeU64 (JVal.jnat t.off0) = _
    show (if t.off0 < two64 then Except.ok t.off0
      else (Except.error "number out of range of uint64" : Except String Nat)) = _
    rw [if_pos h0]
  have hb : decodeOffsetAt [JVal.jnat t.off0, JVal.jnat t.off1] 1 = .ok t.off1 := by
    show decodeU64 (JVal.jnat t.off1) = _
    show (if t.off1 < two64 then Except.ok t.off1
      else (Except.error "number out of range of uint64" : Except String Nat)) = _
    rw [if_pos h1]
  have hoo : decodeOffsets (JVal.jarr [JVal.jnat t.off0, JVal.jnat t.off1])
      = .ok (t.off0, t.off1) := by
    simp only [decodeOffsets]
    rw [ha, hb]
    rfl
  have ho : applyTIField ⟨t.name, t.dtype, t.shape, 0, 0⟩ "data_offsets"
      (JVal.jarr [JVal.jnat t.off0, JVal.jnat t.off1]) = .ok t := by
    unfold applyTIField
    rw [if_neg (by decide : ¬("data_offsets" = "dtype")),
      if_neg (by decide : ¬("data_offsets" = "shape")), if_pos rfl, hoo]
    rfl
  show tiGo [("dtype", JVal.jstr t.dtype),
      ("shape", JVal.jarr (t.shape.map JVal.jnat)),
      ("data_offsets", JVal.jarr [JVal.jnat t.off0, JVal.jnat t.off1])]
      ⟨t.name, "", [], 0, 0⟩ = .ok t
  show (match applyTIField ⟨t.name, "", [], 0, 0⟩ "dtype" (JVal.jstr t.dtype) with
    | .error e => Except.error e
    | .ok acc2 => tiGo [("shape", JVal.jarr (t.shape.map JVal.jnat)),
        ("data_offsets", JVal.jarr [JVal.jnat t.off0, JVal.jnat t.off1])] acc2) = .ok t
  rw [hd]
  show (match applyTIField ⟨t.name, t.dtype, [], 0, 0⟩ "shape"
      (JVal.jarr (t.shape.map JVal.jnat)) with
    | .error e => Except.error e
    | .ok acc2 => tiGo [("data_offsets", JVal.jarr [JVal.jnat t.off0, JVal.jnat t.off1])] acc2)
      = .ok t
  rw [hs]
  show (match applyTIField ⟨t.name, t.dtype, t.shape, 0, 0⟩ "data_offsets"
      (JVal.jarr [JVal.jnat t.off0, JVal.jnat t.off1]) with
    | .error e => Except.error e
    | .ok acc2 => tiGo [] acc2) = .ok t
  rw [ho]
  rfl

theorem headerGo_infos (infos : List TensorInfoC) :
    ∀ acc md0, (∀ t ∈ infos, t.name ≠ "__metadata__" ∧ wordSize t.dtype ≠ 0
      ∧ (∀ n ∈ t.shape, n < two64) ∧ t.off0 < two64 ∧ t.off1 < two64) →
    headerGo (infos.map (fun w => (w.name, infoJ w))) ⟨acc, md0⟩ = .ok ⟨acc ++ infos, md0⟩ := by
  induction infos with
  | nil => intro acc md0 _; simp [headerGo]
  | cons t ts ih =>
    intro acc md0 hall
    obtain ⟨hn, hdt, hdims, h0, h1⟩ := hall t (by simp)
    have hstep : headerStep ⟨acc, md0⟩ t.name (infoJ t) = .ok ⟨acc ++ [t], md0⟩ := by
      unfold headerStep
      rw [if_neg hn, decodeTI_infoJ t hdt hdims h0 h1]
      rfl
    show (match headerStep ⟨acc, md0⟩ t.name (infoJ t) with
      | .error e => Except.error e
      | .ok h2 => headerGo (ts.map (fun (w : TensorInfoC) => (w.name, infoJ w))) h2) = _
    rw [hstep]
    show headerGo (ts.map (fun (w : TensorInfoC) => (w.name, infoJ w))) ⟨acc ++ [t], md0⟩
      = .ok ⟨acc ++ t :: ts, md0⟩
    rw [ih (acc ++ [t]) md0 (fun w hw => hall w (List.mem_cons_of_mem t hw))]
    simp

theorem headerUnmarshal_entries (md : List (String × String)) (infos : List TensorInfoC)
    (hne : infos ≠ [])
    (hall : ∀ t ∈ infos, t.name ≠ "__metadata__" ∧ wordSize t.dtype ≠ 0
      ∧ (∀ n ∈ t.shape, n < two64) ∧ t.off0 < two64 ∧ t.off1 < two64) :
    ∃ md2, headerUnmarshalC (JVal.jobj (headerEntriesJ md infos)) = .ok ⟨infos, md2⟩ := by
  cases md with
  | nil =>
    refine ⟨[], ?_⟩
    have hg := headerGo_infos infos [] [] hall
    rw [List.nil_append] at hg
    show (match headerGo (headerEntriesJ [] infos) ⟨[], []⟩ with
      | .error e => Except.error e
      | .ok h => if h.tensors.length = 0 then Except.error "empty tensors" else Except.ok h) = _
    rw [show headerEntriesJ [] infos
        = infos.map (fun (w : TensorInfoC) => (w.name, infoJ w)) from rfl, hg]
    show (if infos.length = 0 then Except.error "empty tensors"
      else Except.ok (⟨infos, []⟩ : HeaderC)) = _
    rw [if_neg (fun hz => hne (List.length_eq_zero.mp hz))]
  | cons m ms =>
    obtain ⟨md2, hsm⟩ := strMapGo_ok
      ((sortPairs (m :: ms)).map (fun (w : String × String) => (w.1, JVal.jstr w.2))) []
      (by intro p hp
          obtain ⟨w, hw, rfl⟩ := List.mem_map.mp hp
          exact ⟨w.2, rfl⟩)
    refine ⟨md2, ?_⟩
    have hstep : headerStep ⟨[], []⟩ "__metadata__"
        (JVal.jobj ((sortPairs (m :: ms)).map
          (fun (w : String × String) => (w.1, JVal.jstr w.2))))
        = .ok ⟨[], md2⟩ := by
      unfold headerStep
      rw [if_pos rfl]
      have hsm2 : decodeStrMapInto (⟨[], []⟩ : HeaderC).metadata
          (JVal.jobj ((sortPairs (m :: ms)).map
            (fun (w : String × String) => (w.1, JVal.jstr w.2)))) = .ok md2 := hsm
      rw [hsm2]
      rfl
    have hG : headerGo (headerEntriesJ (m :: ms) infos) ⟨[], []⟩ = .ok ⟨infos, md2⟩ := by
      show (match headerStep ⟨[], []⟩ "__metadata__"
          (JVal.jobj ((sortPairs (m :: ms)).map
            (fun (w : String × String) => (w.1, JVal.jstr w.2)))) with
        | .error e => Except.error e
        | .ok h2 => headerGo (infos.map (fun (w : TensorInfoC) => (w.name, infoJ w))) h2) = _
      rw [hstep]
      show headerGo (infos.map (fun (w : TensorInfoC) => (w.name, infoJ w))) ⟨[], md2⟩ = _
      rw [headerGo_infos infos [] md2 hall]
      rw [List.nil_append]
    show (match headerGo (headerEntriesJ (m :: ms) infos) ⟨[], []⟩ with
      | .error e => Except.error e
      | .ok h => if h.tensors.length = 0 then Except.error "empty tensors" else Except.ok h) = _
    rw [hG]
    show (if infos.length = 0 then Except.error "empty tensors"
      else Except.ok (⟨infos, md2⟩ : HeaderC)) = _
    rw [if_neg (fun hz => hne (List.length_eq_zero.mp hz))]


theorem one_lt_two64 : 1 < two64 := by
  unfold two64
  norm_num

theorem numElementsGo_ok (shape : List Nat) :
    ∀ acc r, numElementsGo shape acc = .ok r
      → r = shape.foldl (fun a v => a * v % two64) acc := by
  induction shape with
  | nil =>
    intro acc r h
    injection h with h
    exact h.symm
  | cons v vs ih =>
    intro acc r h
    unfold numElementsGo at h
    cases hc : checkedMulE acc v with
    | error e => rw [hc] at h; exact absurd h (by simp)
    | ok c =>
      rw [hc] at h
      have hcv : c = acc * v % two64 := by
        unfold checkedMulE at hc
        by_cases hb : (checkedMul acc v).2
        · rw [if_pos hb] at hc; exact absurd hc (by simp)
        · rw [if_neg hb] at hc; injection hc with hc; rw [← hc]; rfl
      rw [List.foldl_cons]
      exact ih _ r (by rw [← hcv]; exact h)

theorem numElementsGo_lt (shape : List Nat) :
    ∀ acc r, acc < two64 → numElementsGo shape acc = .ok r → r < two64 := by
  induction shape with
  | nil =>
    intro acc r hlt h
    injection h with h
    rw [← h]
    exact hlt
  | cons v vs ih =>
    intro acc r _ h
    unfold numElementsGo at h
    cases hc : checkedMulE acc v with
    | error e => rw [hc] at h; exact absurd h (by simp)
    | ok c =>
      rw [hc] at h
      have hcv : c = acc * v % two64 := by
        unfold checkedMulE at hc
        by_cases hb : (checkedMul acc v).2
        · rw [if_pos hb] at hc; exact absurd hc (by simp)
        · rw [if_neg hb] at hc; injection hc with hc; rw [← hc]; rfl
      exact ih c r (by rw [hcv]; exact Nat.mod_lt _ two64_pos) h

theorem numElementsChecked_val (shape : List Nat) (r : Nat)
    (hdims : ∀ n ∈ shape, n < two64)
    (h : numElementsChecked shape = .ok r) :
    r = numElementsFromShape shape ∧ r < two64 := by
  cases shape with
  | nil =>
    injection h with h
    constructor
    · rw [← h]; rfl
    · rw [← h]; exact one_lt_two64
  | cons v vs =>
    replace h : numElementsGo vs (1 * v % two64) = .ok r := h
    have hv : 1 * v % two64 = v := by
      have := hdims v (by simp)
      rw [Nat.one_mul, Nat.mod_eq_of_lt this]
    rw [hv] at h
    constructor
    · exact numElementsGo_ok vs v r h
    · exact numElementsGo_lt vs v r (hdims v (by simp)) h

theorem numBytes_agree (t : Tensor) (hdims : ∀ n ∈ t.shape, n < two64)
    (hval : tensorValidate t = true) (nb : Nat)
    (h : numBytesChecked t.dtype t.shape = .ok nb) : nb = t.data.length := by
  unfold numBytesChecked at h
  cases he : numElementsChecked t.shape with
  | error e => rw [he] at h; exact absurd h (by simp)
  | ok ne1 =>
    rw [he] at h
    obtain ⟨hv1, hlt⟩ := numElementsChecked_val t.shape ne1 hdims he
    replace h : (match checkedMulE ne1 (wordSize t.dtype) with
      | .error e => Except.error ("failed to compute num bytes from num elements: " ++ e)
      | .ok nb3 => Except.ok nb3) = Except.ok nb := h
    cases hm : checkedMulE ne1 (wordSize t.dtype) with
    | error e => rw [hm] at h; exact absurd h (by simp)
    | ok nb2 =>
      rw [hm] at h
      injection h with h
      have hnb2 : nb2 = ne1 * wordSize t.dtype % two64 := by
        unfold checkedMulE at hm
        by_cases hf : (checkedMul ne1 (wordSize t.dtype)).2
        · rw [if_pos hf] at hm; exact absurd hm (by simp)
        · rw [if_neg hf] at hm; injection hm with hm; rw [← hm]; rfl
      replace hval : (t.data.length
          == numElementsFromShape t.shape * wordSize t.dtype % two64) = true := hval
      have hval2 := eq_of_beq hval
      rw [← h, hnb2, hv1]
      exact hval2.symm

theorem assign_chainOk (ts : List Tensor) :
    ∀ start, start + (ts.map (fun w => w.data.length)).sum < two64 →
    (∀ t ∈ ts, ∃ nb, numBytesChecked t.dtype t.shape = .ok nb ∧ nb = t.data.length) →
    chainOk (assignOffsets ts start) start := by
  induction ts with
  | nil => intro start _ _; trivial
  | cons t rest ih =>
    intro start hbound hall
    obtain ⟨nb, hnb, hnbl⟩ := hall t (by simp)
    simp only [List.map_cons, List.sum_cons] at hbound
    have hlt : start + t.data.length < two64 := by omega
    have he : (start + t.data.length) % two64 = start + t.data.length := Nat.mod_eq_of_lt hlt
    show chainOk (⟨t.name, t.dtype, t.shape, start, (start + t.data.length) % two64⟩
      :: assignOffsets rest ((start + t.data.length) % two64)) start
    rw [he]
    show start = start ∧ start ≤ start + t.data.length
      ∧ (∃ nb2, numBytesChecked t.dtype t.shape = Except.ok nb2
          ∧ start + t.data.length - start = nb2)
      ∧ chainOk (assignOffsets rest (start + t.data.length)) (start + t.data.length)
    refine ⟨rfl, by omega, ⟨nb, hnb, by omega⟩, ?_⟩
    exact ih (start + t.data.length) (by omega)
      (fun w hw => hall w (List.mem_cons_of_mem t hw))

theorem assign_lastEnd (ts : List Tensor) :
    ∀ start, start + (ts.map (fun w => w.data.length)).sum < two64 →
    lastEnd (assignOffsets ts start) start
      = start + (ts.map (fun w => w.data.length)).sum := by
  induction ts with
  | nil => intro start _; simp [lastEnd]
  | cons t rest ih =>
    intro start hbound
    simp only [List.map_cons, List.sum_cons] at hbound ⊢
    have hlt : start + t.data.length < two64 := by omega
    have he : (start + t.data.length) % two64 = start + t.data.length := Nat.mod_eq_of_lt hlt
    show lastEnd (assignOffsets rest ((start + t.data.length) % two64))
      ((start + t.data.length) % two64) = _
    rw [he, ih (start + t.data.length) (by omega)]
    omega

theorem assign_mem (ts : List Tensor) :
    ∀ start i, i ∈ assignOffsets ts start →
      ∃ t ∈ ts, i.name = t.name ∧ i.dtype = t.dtype ∧ i.shape = t.shape := by
  induction ts with
  | nil => intro start i hi; exact absurd hi (List.not_mem_nil i)
  | cons t rest ih =>
    intro start i hi
    rcases List.mem_cons.mp hi with hh | ht
    · exact ⟨t, by simp, by rw [hh], by rw [hh], by rw [hh]⟩
    · obtain ⟨u, hu, hfields⟩ := ih _ i ht
      exact ⟨u, List.mem_cons_of_mem t hu, hfields⟩

theorem assign_off_lt (ts : List Tensor) :
    ∀ start, start + (ts.map (fun w => w.data.length)).sum < two64 →
    ∀ i ∈ assignOffsets ts start, i.off0 < two64 ∧ i.off1 < two64 := by
  induction ts with
  | nil => intro start _ i hi; exact absurd hi (List.not_mem_nil i)
  | cons t rest ih =>
    intro start hbound i hi
    simp only [List.map_cons, List.sum_cons] at hbound
    have hlt : start + t.data.length < two64 := by omega
    have he : (start + t.data.length) % two64 = start + t.data.length := Nat.mod_eq_of_lt hlt
    rcases List.mem_cons.mp hi with hh | ht
    · rw [hh]
      refine ⟨?_, ?_⟩
      · show start < two64
        omega
      · show (start + t.data.length) % two64 < two64
        exact Nat.mod_lt _ two64_pos
    · replace ht : i ∈ assignOffsets rest (start + t.data.length) := by rw [← he]; exact ht
      exact ih (start + t.data.length) (by omega) i ht

theorem sliceBytes_append (pre d rest : List Nat) :
    sliceBytes (pre ++ (d ++ rest)) pre.length (pre.length + d.length) = d := by
  unfold sliceBytes
  rw [← List.append_assoc]
  rw [show pre.length + d.length = (pre ++ d).length from (List.length_append pre d).symm]
  rw [List.take_left]
  rw [List.drop_left]

theorem validateTensors_ok (ts : List Tensor) (h : ∀ t ∈ ts, tensorValidate t = true) :
    validateTensors ts = .ok () := by
  induction ts with
  | nil => rfl
  | cons t rest ih =>
    unfold validateTensors
    rw [h t (by simp), if_pos rfl]
    exact ih (fun w hw => h w (List.mem_cons_of_mem t hw))

theorem buildTensors_assign (ts : List Tensor) :
    ∀ pre : List Nat, pre.length + (ts.map (fun w => w.data.length)).sum < two64 →
    (∀ t ∈ ts, tensorValidate t = true) →
    buildTensors (pre ++ (ts.map Tensor.data).flatten) (assignOffsets ts pre.length)
      = .ok ts := by
  induction ts with
  | nil => intro pre _ _; rfl
  | cons t rest ih =>
    intro pre hbound hval
    simp only [List.map_cons, List.sum_cons] at hbound
    have hlt : pre.length + t.data.length < two64 := by omega
    have he : (pre.length + t.data.length) % two64 = pre.length + t.data.length :=
      Nat.mod_eq_of_lt hlt
    rw [show ((t :: rest).map Tensor.data).flatten
      = t.data ++ (rest.map Tensor.data).flatten from by simp]
    show buildTensors (pre ++ (t.data ++ (rest.map Tensor.data).flatten))
      (⟨t.name, t.dtype, t.shape, pre.length, (pre.length + t.data.length) % two64⟩
        :: assignOffsets rest ((pre.length + t.data.length) % two64)) = .ok (t :: rest)
    rw [he]
    have hslice : sliceBytes (pre ++ (t.data ++ (rest.map Tensor.data).flatten))
        pre.length (pre.length + t.data.length) = t.data :=
      sliceBytes_append pre t.data _
    simp only [buildTensors]
    rw [hslice]
    rw [show (⟨t.name, t.dtype, t.shape, t.data⟩ : Tensor) = t from rfl]
    rw [hval t (by simp), if_pos rfl]
    have hih := ih (pre ++ t.data)
      (by rw [List.length_append]; omega)
      (fun w hw => hval w (List.mem_cons_of_mem t hw))
    rw [List.append_assoc] at hih
    rw [List.length_append] at hih
    rw [hih]


theorem flatten_len (ts : List Tensor) :
    ((ts.map Tensor.data).flatten).length = (ts.map (fun w => w.data.length)).sum := by
  induction ts with
  | nil => rfl
  | cons t rest ih => simp [ih]

theorem serialize_out (f : FileS) (hval : ∀ t ∈ f.tensors, tensorValidate t = true) :
    serializeFile f = .ok (outBytes f) := by
  unfold serializeFile
  rw [validateTensors_ok f.tensors hval]
  rfl

theorem parse_out (f : FileS)
    (hne : f.tensors ≠ [])
    (hval : ∀ t ∈ f.tensors, tensorValidate t = true)
    (hnames : ∀ t ∈ f.tensors, jsonPlain t.name = true ∧ t.name ≠ "__metadata__")
    (hdt : ∀ t ∈ f.tensors, wordSize t.dtype ≠ 0)
    (hdims : ∀ t ∈ f.tensors, ∀ n ∈ t.shape, n < two64)
    (hnb : ∀ t ∈ f.tensors, ∃ nb, numBytesChecked t.dtype t.shape = Except.ok nb)
    (hmd : ∀ p ∈ f.metadata, jsonPlain p.1 = true ∧ jsonPlain p.2 = true)
    (hhdr : (hbBytes f).length ≤ maxHeaderSize)
    (htot : dataSum f + maxHeaderSize + 8 < two64) :
    ∃ md2, Parse (outBytes f) = .ok ⟨f.tensors, md2⟩ := by
  have hmaxlt : maxHeaderSize < two64 := by unfold maxHeaderSize two64; norm_num
  have hHBlt : (hbBytes f).length < two64 := by omega
  have hmod : (hbBytes f).length % two64 = (hbBytes f).length := Nat.mod_eq_of_lt hHBlt
  have hsum0 : 0 + (f.tensors.map (fun w => w.data.length)).sum < two64 := by
    unfold dataSum at htot; omega
  obtain ⟨t0, ts0, hts⟩ : ∃ t0 ts0, f.tensors = t0 :: ts0 := by
    cases h : f.tensors with
    | nil => exact absurd h hne
    | cons a b => exact ⟨a, b, rfl⟩
  have hinfne : serializeInfos f ≠ [] := by
    unfold serializeInfos
    rw [hts]
    show (⟨t0.name, t0.dtype, t0.shape, 0, (0 + t0.data.length) % two64⟩
      :: assignOffsets ts0 ((0 + t0.data.length) % two64)) ≠ []
    simp
  have hmem : ∀ i ∈ serializeInfos f,
      ∃ t ∈ f.tensors, i.name = t.name ∧ i.dtype = t.dtype ∧ i.shape = t.shape :=
    fun i hi => assign_mem f.tensors 0 i hi
  have hofflt : ∀ i ∈ serializeInfos f, i.off0 < two64 ∧ i.off1 < two64 :=
    fun i hi => assign_off_lt f.tensors 0 hsum0 i hi
  have hinf : ∀ i ∈ serializeInfos f, jsonPlain i.name = true ∧ jsonPlain i.dtype = true := by
    intro i hi
    obtain ⟨t, ht, hn, hd, _⟩ := hmem i hi
    exact ⟨by rw [hn]; exact (hnames t ht).1,
      by rw [hd]; exact wordSize_jsonPlain t.dtype (hdt t ht)⟩
  have hall : ∀ i ∈ serializeInfos f, i.name ≠ "__metadata__" ∧ wordSize i.dtype ≠ 0
      ∧ (∀ n ∈ i.shape, n < two64) ∧ i.off0 < two64 ∧ i.off1 < two64 := by
    intro i hi
    obtain ⟨t, ht, hn, hd, hs⟩ := hmem i hi
    exact ⟨by rw [hn]; exact (hnames t ht).2, by rw [hd]; exact hdt t ht,
      by rw [hs]; exact hdims t ht, (hofflt i hi).1, (hofflt i hi).2⟩
  have hjr : jsonRead (hbBytes f)
      = .ok (JVal.jobj (headerEntriesJ f.metadata (serializeInfos f))) :=
    jsonRead_header f.metadata (serializeInfos f) hinfne hmd hinf
  obtain ⟨md2, hdu⟩ := headerUnmarshal_entries f.metadata (serializeInfos f) hinfne hall
  refine ⟨md2, ?_⟩
  have hflat : ((f.tensors.map Tensor.data).flatten).length = dataSum f := flatten_len f.tensors
  have hout_len : (outBytes f).length = 8 + ((hbBytes f).length + dataSum f) := by
    unfold outBytes
    rw [List.length_append, List.length_append, le64bytes_length, hflat]
  have hn8 : ¬((outBytes f).length < 8) := by omega
  have hle : le64 (outBytes f) = (hbBytes f).length := by
    unfold outBytes
    rw [ le64_prefix ((hbBytes f).length % two64) (Nat.mod_lt _ two64_pos)
      (hbBytes f ++ (f.tensors.map Tensor.data).flatten)]
    exact hmod
  have hdrop8 : (outBytes f).drop 8 = hbBytes f ++ (f.tensors.map Tensor.data).flatten := by
    unfold outBytes
    rw [show (8 : Nat) = (le64bytes ((hbBytes f).length % two64)).length from
      (le64bytes_length _).symm]
    exact List.drop_left _ _
  have htake : (hbBytes f ++ (f.tensors.map Tensor.data).flatten).take ((hbBytes f).length)
      = hbBytes f := List.take_left _ _
  have hPH : parseHeaderBytes (outBytes f)
      = .ok ((hbBytes f).length, ⟨serializeInfos f, md2⟩) := by
    simp only [parseHeaderBytes]
    rw [if_neg hn8, hle]
    rw [if_neg (by omega : ¬((hbBytes f).length > maxHeaderSize))]
    rw [if_neg (by omega : ¬((hbBytes f).length + 8 > (outBytes f).length))]
    rw [hdrop8, htake, hjr]
    show (match headerUnmarshalC (JVal.jobj (headerEntriesJ f.metadata (serializeInfos f))) with
      | .error e => Except.error e
      | .ok h => Except.ok ((hbBytes f).length, h)) = _
    rw [hdu]
  have hagree : ∀ t ∈ f.tensors,
      ∃ nb, numBytesChecked t.dtype t.shape = .ok nb ∧ nb = t.data.length := by
    intro t ht
    obtain ⟨nb, hnb2⟩ := hnb t ht
    exact ⟨nb, hnb2, numBytes_agree t (hdims t ht) (hval t ht) nb hnb2⟩
  have hchain : chainOk (serializeInfos f) 0 := assign_chainOk f.tensors 0 hsum0 hagree
  obtain ⟨r, hr⟩ := (headerValidateGo_ok_iff (serializeInfos f) 0 0).mpr hchain
  have hrv : r = lastEnd (serializeInfos f) 0 :=
    headerValidateGo_ok_val (serializeInfos f) 0 0 r hr
  have hlast : lastEnd (serializeInfos f) 0
      = 0 + (f.tensors.map (fun w => w.data.length)).sum := assign_lastEnd f.tensors 0 hsum0
  have hHV : headerValidate (serializeInfos f) = .ok (dataSum f) := by
    show headerValidateGo (serializeInfos f) 0 0 = _
    rw [hr, hrv, hlast, Nat.zero_add]
    rfl
  have hckeq : (dataSum f + 8 + (hbBytes f).length) % two64 = (outBytes f).length := by
    rw [Nat.mod_eq_of_lt (by omega)]
    omega
  have hdropn : (outBytes f).drop ((hbBytes f).length + 8)
      = (f.tensors.map Tensor.data).flatten := by
    unfold outBytes
    rw [← List.append_assoc]
    rw [show (hbBytes f).length + 8
        = (le64bytes ((hbBytes f).length % two64) ++ hbBytes f).length from by
      rw [List.length_append, le64bytes_length]
      omega]
    exact List.drop_left _ _
  have hbt : buildTensors ((f.tensors.map Tensor.data).flatten) (serializeInfos f)
      = .ok f.tensors := by
    have h := buildTensors_assign f.tensors [] (by simpa using hsum0) hval
    simp only [List.nil_append, List.length_nil] at h
    exact h
  simp only [Parse]
  rw [hPH]
  simp [hHV, hckeq, hdropn, hbt]


/-- C1: Corrected round-trip. For a container with at least one tensor
whose tensors all pass view validation AND whose overflow-checked
byte-size computations succeed (with JSON-plain names distinct from the
reserved key, known dtypes, in-range dimensions and offsets, JSON-plain
side-dictionary keys and values, a header within the size ceiling and a
total size below `2^64`), `Parse` inverts `File.Serialize`: decoding the
encoded bytes recovers exactly the original tensor list (the current
codec keeps order, so equality holds even keyed by name).  Each listed
restriction marks a real boundary of the unrestricted claim: without the
checked-size condition it is false (`c1_roundtrip_counterexample`
exhibits a validated container whose encoding `Parse` rejects), and
without nonemptiness it is false as well (the empty container serializes
to bytes that `Parse` rejects as "empty tensors"). -/
theorem c1_roundtrip (f : FileS)
    (hne : f.tensors ≠ [])
    (hval : ∀ t ∈ f.tensors, tensorValidate t = true)
    (hnames : ∀ t ∈ f.tensors, jsonPlain t.name = true ∧ t.name ≠ "__metadata__")
    (hdt : ∀ t ∈ f.tensors, wordSize t.dtype ≠ 0)
    (hdims : ∀ t ∈ f.tensors, ∀ n ∈ t.shape, n < two64)
    (hnb : ∀ t ∈ f.tensors, ∃ nb, numBytesChecked t.dtype t.shape = Except.ok nb)
    (hmd : ∀ p ∈ f.metadata, jsonPlain p.1 = true ∧ jsonPlain p.2 = true)
    (hhdr : (hbBytes f).length ≤ maxHeaderSize)
    (htot : dataSum f + maxHeaderSize + 8 < two64) :
    ∃ out f2, serializeFile f = .ok out ∧ Parse out = .ok f2 ∧ f2.tensors = f.tensors := by
  obtain ⟨md2, hp⟩ := parse_out f hne hval hnames hdt hdims hnb hmd hhdr htot
  exact ⟨outBytes f, ⟨f.tensors, md2⟩, serialize_out f hval, hp, rfl⟩

theorem c1_roundtrip_witness :
    ∃ out f2, serializeFile fooFile = .ok out ∧ Parse out = .ok f2
      ∧ f2.tensors = fooFile.tensors :=
  c1_roundtrip fooFile (by decide) (by decide) (by decide) (by decide) (by decide)
    (by
      intro t ht
      rw [List.mem_singleton.mp ht]
      exact ⟨24, rfl⟩)
    (by intro p hp; exact absurd hp (List.not_mem_nil p))
    (by decide) (by decide)


end Safetensors
